import Mathlib

/-!
Shallow embedding of the identifier-generation core of the `gen-id` crate
(UUID generator with embedded client metadata), together with proofs of the
specification claims about it.

Machine integers (`u8`, `u16`, `u32`, `u64`) are embedded as `Nat` with
explicit masking/`% 2^w` wherever the Rust code wraps or casts.  Rust strings
are embedded as their byte lists (`List Nat`, hashing) or as character lists
(`List Char`, identifier texts).
-/

/-- Operating system type, from `src/crates/utils/gen-id/src/uuid/metadata.rs`
(the identical enum also appears in `src/crates/utils/gen-id/src/metadata.rs`).
Discriminants: Linux = 1, Windows = 2, MacOS = 3, Android = 4, IOS = 5. -/
inductive OsType where
  | Linux
  | Windows
  | MacOS
  | Android
  | IOS
deriving DecidableEq, Repr

/-- The numeric discriminant of the enum (`self as u8`), used by both
`OsType::encode` implementations. -/
def OsType.encode : OsType → Nat
  | .Linux => 1
  | .Windows => 2
  | .MacOS => 3
  | .Android => 4
  | .IOS => 5

/-- Embeds `OsType::decode` of `src/crates/utils/gen-id/src/uuid/metadata.rs`:
match on `value & 0x07`, unknown codes fall back to Linux. -/
def OsType.decode (value : Nat) : OsType :=
  match value &&& 0x07 with
  | 1 => OsType.Linux
  | 2 => OsType.Windows
  | 3 => OsType.MacOS
  | 4 => OsType.Android
  | 5 => OsType.IOS
  | _ => OsType.Linux

/-- Embeds `OsType::decode` of `src/crates/utils/gen-id/src/metadata.rs`
(the 4-bit variant): match on `value & 0x0F`, unknown codes fall back to
Linux. -/
def OsType.decode4 (value : Nat) : OsType :=
  match value &&& 0x0F with
  | 1 => OsType.Linux
  | 2 => OsType.Windows
  | 3 => OsType.MacOS
  | 4 => OsType.Android
  | 5 => OsType.IOS
  | _ => OsType.Linux

/-- Embeds `encode_os_metadata` of
`src/crates/utils/gen-id/src/uuid/metadata.rs`: 12-bit field, 3 bits type,
5 bits major, 4 bits minor. -/
def encode_os_metadata (os_type : OsType) (os_version : Nat × Nat) : Nat :=
  let type_bits := os_type.encode <<< 9
  let major_bits := (os_version.1 &&& 0x1F) <<< 4
  let minor_bits := os_version.2 &&& 0x0F
  type_bits ||| major_bits ||| minor_bits

/-- Embeds `decode_os_metadata` of
`src/crates/utils/gen-id/src/uuid/metadata.rs`. -/
def decode_os_metadata (encoded : Nat) : OsType × (Nat × Nat) :=
  let os_type := OsType.decode (encoded >>> 9)
  let major := (encoded >>> 4) &&& 0x1F
  let minor := encoded &&& 0x0F
  (os_type, (major, minor))

/-- Embeds `encode_os_metadata` of `src/crates/utils/gen-id/src/metadata.rs`
(the 4-bit/4-bit/4-bit variant): 4 bits type, 4 bits major, 4 bits minor. -/
def encode_os_metadata4 (os_type : OsType) (os_version : Nat × Nat) : Nat :=
  let type_bits := os_type.encode <<< 8
  let version_bits := ((os_version.1 &&& 0x0F) <<< 4) ||| (os_version.2 &&& 0x0F)
  type_bits ||| version_bits

/-- Embeds `decode_os_metadata` of `src/crates/utils/gen-id/src/metadata.rs`
(the 4-bit/4-bit/4-bit variant). -/
def decode_os_metadata4 (encoded : Nat) : OsType × (Nat × Nat) :=
  let os_type := OsType.decode4 (encoded >>> 8)
  let major := (encoded >>> 4) &&& 0x0F
  let minor := encoded &&& 0x0F
  (os_type, (major, minor))

/-- Helper: the five OS families, as the claim C5 enumerates them. -/
def osTypeIsDefined (t : OsType) : Prop :=
  t = OsType.Linux ∨ t = OsType.Windows ∨ t = OsType.MacOS ∨
    t = OsType.Android ∨ t = OsType.IOS

instance (t : OsType) : Decidable (osTypeIsDefined t) := by
  unfold osTypeIsDefined; infer_instance

/-- Helper for C1: encoding with pre-masked components, quantified over the
bounded ranges, settled by exhaustive evaluation. -/
theorem decode_encode_masked :
    ∀ (t : OsType) (a : Fin 32) (b : Fin 16),
      decode_os_metadata (encode_os_metadata t (a.val, b.val)) =
        (t, (a.val, b.val)) := by
  intro t a b
  revert a b
  cases t <;> decide

/-- Helper: masking a component twice is the same as masking it once. -/
theorem and_mask_idem (x m : Nat) : (x &&& m) &&& m = x &&& m := by
  rw [Nat.and_assoc, Nat.and_self]

/-- Helper: the encoder only sees the masked components. -/
theorem encode_os_metadata_mask (t : OsType) (maj minor : Nat) :
    encode_os_metadata t (maj, minor) =
      encode_os_metadata t (maj &&& 0x1F, minor &&& 0x0F) := by
  unfold encode_os_metadata
  simp only [and_mask_idem]

/-- C1: codec round-trip for the 3-bit/5-bit/4-bit codec of
`src/crates/utils/gen-id/src/uuid/metadata.rs`: decoding an encoded record
recovers the OS family exactly and the (major, minor) version components up
to the masking (`& 0x1F`, `& 0x0F`) that the encoder itself applies.  Stated
for all natural inputs, which subsumes all 8-bit inputs. -/
theorem c1_codec_roundtrip (t : OsType) (maj minor : Nat) :
    decode_os_metadata (encode_os_metadata t (maj, minor)) =
      (t, (maj &&& 0x1F, minor &&& 0x0F)) := by
  have hmaj : maj &&& 0x1F < 32 := Nat.and_lt_two_pow maj (by decide : (0x1F : Nat) < 2 ^ 5)
  have hminor : minor &&& 0x0F < 16 := Nat.and_lt_two_pow minor (by decide : (0x0F : Nat) < 2 ^ 4)
  rw [encode_os_metadata_mask]
  exact decode_encode_masked t ⟨maj &&& 0x1F, hmaj⟩ ⟨minor &&& 0x0F, hminor⟩

set_option maxRecDepth 2000 in
/-- C5: family decode totality and fallback, for both `OsType::decode`
variants present in the source (the 3-bit-mask variant of
`src/crates/utils/gen-id/src/uuid/metadata.rs` and the 4-bit-mask variant of
`src/crates/utils/gen-id/src/metadata.rs`).  For every 8-bit input the result
is one of the five defined families, and every in-field bit pattern other
than the codes 1 through 5 decodes to Linux. -/
theorem c5_decode_total_fallback :
    ∀ b : Fin 256,
      osTypeIsDefined (OsType.decode b.val) ∧
      osTypeIsDefined (OsType.decode4 b.val) ∧
      ((b.val &&& 0x07) ∉ [1, 2, 3, 4, 5] → OsType.decode b.val = OsType.Linux) ∧
      ((b.val &&& 0x0F) ∉ [1, 2, 3, 4, 5] → OsType.decode4 b.val = OsType.Linux) := by
  decide

/-- C7: the two codec variants in the source are incompatible.  At the input
(Linux, (5, 0)) — whose components fit both bit splits unmasked — the two
encoders produce different 12-bit values, and mixing either encoder with the
other decoder violates the round-trip property. -/
theorem c7_codec_variants_incompatible :
    encode_os_metadata OsType.Linux (5, 0) ≠ encode_os_metadata4 OsType.Linux (5, 0) ∧
    decode_os_metadata (encode_os_metadata4 OsType.Linux (5, 0)) ≠
      (OsType.Linux, (5, 0)) ∧
    decode_os_metadata4 (encode_os_metadata OsType.Windows (5, 0)) ≠
      (OsType.Windows, (5, 0)) := by
  decide

/-- Embeds `hash_to_u32` of `src/crates/utils/gen-id/src/uuid/metadata.rs`
(`src/crates/utils/gen-id/src/metadata.rs` is identical): djb2-style fold
`hash = ((hash << 5).wrapping_add(hash)).wrapping_add(byte)` over the byte
string, in wrapping (mod 2^32) `u32` arithmetic, starting from 5381.  The
input string is embedded as its byte list. -/
def hash_to_u32 (input : List Nat) : Nat :=
  input.foldl (fun hash byte => (((hash <<< 5) % 2 ^ 32 + hash) % 2 ^ 32 + byte) % 2 ^ 32) 5381


/-- Embeds `hash_to_u16` of `src/crates/utils/gen-id/src/uuid/metadata.rs`:
the same fold as `hash_to_u32`, then `(hash ^ (hash >> 16)) as u16`, embedded
as xor followed by the `u16` truncation `% 2^16`. -/
def hash_to_u16 (input : List Nat) : Nat :=
  let hash :=
    input.foldl (fun hash byte => (((hash <<< 5) % 2 ^ 32 + hash) % 2 ^ 32 + byte) % 2 ^ 32) 5381
  (hash ^^^ (hash >>> 16)) % 2 ^ 16

/-- Helper: the wrapping-arithmetic step of the source hash equals the
reference step `hash * 33 + byte` in mod-2^32 arithmetic. -/
theorem hash_step_eq (h b : Nat) :
    (((h <<< 5) % 2 ^ 32 + h) % 2 ^ 32 + b) % 2 ^ 32 = (h * 33 + b) % 2 ^ 32 := by
  rw [Nat.shiftLeft_eq, Nat.mod_add_mod, Nat.add_assoc, Nat.mod_add_mod, ← Nat.add_assoc]
  have harith : h * 2 ^ 5 + h = h * 33 := by ring
  rw [harith]

/-- Helper: the source fold equals the reference fold from any accumulator. -/
theorem hash_fold_eq (s : List Nat) : ∀ h : Nat,
    s.foldl (fun hash byte => (((hash <<< 5) % 2 ^ 32 + hash) % 2 ^ 32 + byte) % 2 ^ 32) h =
      s.foldl (fun hash byte => (hash * 33 + byte) % 2 ^ 32) h := by
  intro h
  simp only [hash_step_eq]

/-- Helper: the reference fold stays below 2^32 when started below 2^32. -/
theorem hash_fold_lt (s : List Nat) : ∀ h : Nat, h < 2 ^ 32 →
    s.foldl (fun hash byte => (hash * 33 + byte) % 2 ^ 32) h < 2 ^ 32 := by
  induction s with
  | nil => intro h hh; exact hh
  | cons b t ih =>
    intro h _
    exact ih _ (Nat.mod_lt _ (by norm_num))

/-- Helper: `hash_to_u32` always produces a 32-bit value. -/
theorem hash_to_u32_lt (s : List Nat) : hash_to_u32 s < 2 ^ 32 := by
  unfold hash_to_u32
  rw [hash_fold_eq]
  exact hash_fold_lt s 5381 (by norm_num)

/-- Helper: truncation of an xor is the xor of the truncations. -/
theorem xor_mod_two_pow (a b n : Nat) :
    (a ^^^ b) % 2 ^ n = (a % 2 ^ n) ^^^ (b % 2 ^ n) := by
  apply Nat.eq_of_testBit_eq
  intro i
  simp only [Nat.testBit_mod_two_pow, Nat.testBit_xor]
  cases Nat.decLt i n with
  | isTrue h => simp [h]
  | isFalse h => simp [h]

/-- C8: the hash primitives match the reference algorithm and are
deterministic.  For every input byte string, `hash_to_u32` equals the fold of
`h ↦ h * 33 + byte` in mod-2^32 arithmetic starting from 5381; `hash_to_u16`
equals that 32-bit result folded by xor-ing its high 16 bits with its low 16
bits (the result already being 16 bits wide, the `u16` truncation is the
identity on it); and equal inputs yield equal outputs. -/
theorem c8_hash_reference (s : List Nat) :
    hash_to_u32 s = s.foldl (fun hash byte => (hash * 33 + byte) % 2 ^ 32) 5381 ∧
    hash_to_u16 s = (hash_to_u32 s >>> 16) ^^^ (hash_to_u32 s &&& 0xFFFF) ∧
    (∀ t : List Nat, s = t → hash_to_u32 s = hash_to_u32 t ∧ hash_to_u16 s = hash_to_u16 t) := by
  refine ⟨by unfold hash_to_u32; rw [hash_fold_eq], ?_, ?_⟩
  · show (hash_to_u32 s ^^^ (hash_to_u32 s >>> 16)) % 2 ^ 16 = _
    have hlt : hash_to_u32 s < 2 ^ 32 := hash_to_u32_lt s
    have hsh : hash_to_u32 s >>> 16 < 2 ^ 16 := by
      rw [Nat.shiftRight_eq_div_pow]
      exact Nat.div_lt_of_lt_mul (by exact_mod_cast hlt)
    rw [xor_mod_two_pow, Nat.mod_eq_of_lt hsh]
    have hmask : hash_to_u32 s % 2 ^ 16 = hash_to_u32 s &&& 0xFFFF := by
      rw [show (0xFFFF : Nat) = 2 ^ 16 - 1 from rfl, Nat.and_pow_two_sub_one_eq_mod]
    rw [hmask, Nat.xor_comm]
  · intro t het
    exact ⟨congrArg hash_to_u32 het, congrArg hash_to_u16 het⟩

/-- C8 witness: the theorem applied to the byte string "ab" = [97, 98]. -/
theorem c8_hash_reference_witness :
    hash_to_u32 [97, 98] =
      List.foldl (fun hash byte => (hash * 33 + byte) % 2 ^ 32) 5381 [97, 98] ∧
    hash_to_u16 [97, 98] =
      (hash_to_u32 [97, 98] >>> 16) ^^^ (hash_to_u32 [97, 98] &&& 0xFFFF) ∧
    (∀ t : List Nat, [97, 98] = t →
      hash_to_u32 [97, 98] = hash_to_u32 t ∧ hash_to_u16 [97, 98] = hash_to_u16 t) :=
  c8_hash_reference [97, 98]

/-- Embeds `ClientMetadata` of `src/crates/utils/gen-id/src/uuid/metadata.rs`.
The hostname and optional user agent strings are embedded as byte lists. -/
structure ClientMetadata where
  os_type : OsType
  os_version : Nat × Nat
  hostname : List Nat
  user_agent : Option (List Nat)

/-- Embeds `ExtractedMetadata` of
`src/crates/utils/gen-id/src/uuid/metadata.rs`. -/
structure ExtractedMetadata where
  timestamp_ms : Nat
  os_type : OsType
  os_version : Nat × Nat
  hostname_hash : Nat
  extended_hash : Nat
deriving DecidableEq, Repr

/-- The 16 bytes of a `Uuid` value (`uuid::Uuid::as_bytes`), each field an
8-bit value. -/
structure UuidBytes where
  b0 : Nat
  b1 : Nat
  b2 : Nat
  b3 : Nat
  b4 : Nat
  b5 : Nat
  b6 : Nat
  b7 : Nat
  b8 : Nat
  b9 : Nat
  b10 : Nat
  b11 : Nat
  b12 : Nat
  b13 : Nat
  b14 : Nat
  b15 : Nat
deriving DecidableEq, Repr

/-- The bytes of a `Uuid` in order, as a list. -/
def UuidBytes.toList (u : UuidBytes) : List Nat :=
  [u.b0, u.b1, u.b2, u.b3, u.b4, u.b5, u.b6, u.b7,
   u.b8, u.b9, u.b10, u.b11, u.b12, u.b13, u.b14, u.b15]

/-- All bytes of a `Uuid` value are 8-bit. -/
def UuidBytes.Wf (u : UuidBytes) : Prop :=
  u.b0 < 256 ∧ u.b1 < 256 ∧ u.b2 < 256 ∧ u.b3 < 256 ∧
  u.b4 < 256 ∧ u.b5 < 256 ∧ u.b6 < 256 ∧ u.b7 < 256 ∧
  u.b8 < 256 ∧ u.b9 < 256 ∧ u.b10 < 256 ∧ u.b11 < 256 ∧
  u.b12 < 256 ∧ u.b13 < 256 ∧ u.b14 < 256 ∧ u.b15 < 256

/-- Embeds `extract_metadata` of
`src/crates/utils/gen-id/src/uuid/metadata.rs`: refuse unless the version
nibble (high nibble of byte 6) is 0x7, then read the timestamp from bytes
0-5 (big-endian), the 12-bit OS field from the low nibble of byte 6 and
byte 7, the hostname-hash byte from byte 9 and the big-endian extended hash
from bytes 10-13. -/
def extract_metadata (u : UuidBytes) : Option ExtractedMetadata :=
  if u.b6 >>> 4 ≠ 0x07 then none
  else
    let timestamp_ms :=
      u.b0 * 2 ^ 40 + u.b1 * 2 ^ 32 + u.b2 * 2 ^ 24 + u.b3 * 2 ^ 16 + u.b4 * 2 ^ 8 + u.b5
    let os_encoded := ((u.b6 &&& 0x0F) <<< 8) ||| u.b7
    let decoded := decode_os_metadata os_encoded
    let extended_hash := u.b10 * 2 ^ 24 + u.b11 * 2 ^ 16 + u.b12 * 2 ^ 8 + u.b13
    some
      { timestamp_ms := timestamp_ms
        os_type := decoded.1
        os_version := decoded.2
        hostname_hash := u.b9
        extended_hash := extended_hash }

/-- The string hashed into bytes 10-13 by
`UuidGenerator::generate_with_metadata`: hostname concatenated with the user
agent when one is present, the hostname alone otherwise. -/
def extended_input (metadata : ClientMetadata) : List Nat :=
  match metadata.user_agent with
  | some ua => metadata.hostname ++ ua
  | none => metadata.hostname

/-- Embeds the byte-rewriting step of `UuidGenerator::generate_with_metadata`
(`src/crates/utils/gen-id/src/uuid/generator.rs`, lines 108-138): starting
from a freshly generated version-7 value, overwrite byte 6 with `0x70 |
((os_encoded >> 8) as u8 & 0x0F)`, byte 7 with `os_encoded as u8`, byte 9
with the low byte of the 16-bit hostname hash and bytes 10-13 with the
big-endian bytes of the 32-bit extended hash; all other bytes are kept. -/
def inject_metadata (metadata : ClientMetadata) (u : UuidBytes) : UuidBytes :=
  let os_encoded := encode_os_metadata metadata.os_type metadata.os_version
  let hostname_hash := hash_to_u16 metadata.hostname
  let extended_hash := hash_to_u32 (extended_input metadata)
  { u with
    b6 := 0x70 ||| ((os_encoded >>> 8) &&& 0x0F)
    b7 := os_encoded % 256
    b9 := hostname_hash &&& 0xFF
    b10 := (extended_hash >>> 24) % 256
    b11 := (extended_hash >>> 16) % 256
    b12 := (extended_hash >>> 8) % 256
    b13 := extended_hash % 256 }

/-- Modelled from the spec: `Uuid::now_v7()` comes from the external `uuid`
crate, whose code is not part of this repository.  Following the byte-layout
table of the spec (section 3), a fresh version-7 value carries the 48-bit
millisecond timestamp big-endian in bytes 0-5, the version nibble 0x7 in the
high nibble of byte 6, the variant bits `10` in the top bits of byte 8, and
random bits everywhere else; `V7Rand` supplies those random bits. -/
structure V7Rand where
  r0 : Nat
  r1 : Nat
  r2 : Nat
  r3 : Nat
  r4 : Nat
  r5 : Nat
  r6 : Nat
  r7 : Nat
  r8 : Nat
  r9 : Nat
deriving DecidableEq, Repr

/-- All random bytes drawn for a version-7 value are 8-bit. -/
def V7Rand.Wf (r : V7Rand) : Prop :=
  r.r0 < 256 ∧ r.r1 < 256 ∧ r.r2 < 256 ∧ r.r3 < 256 ∧ r.r4 < 256 ∧
  r.r5 < 256 ∧ r.r6 < 256 ∧ r.r7 < 256 ∧ r.r8 < 256 ∧ r.r9 < 256

/-- Modelled from the spec: the byte layout of `Uuid::now_v7()` for timestamp
`t` and random bytes `r` (spec section 3): bytes 0-5 big-endian timestamp,
byte 6 = version nibble over 4 random bits, byte 8 = variant bits `10` over 6
random bits, the rest random. -/
def mkV7 (t : Nat) (r : V7Rand) : UuidBytes where
  b0 := t / 256 ^ 5 % 256
  b1 := t / 256 ^ 4 % 256
  b2 := t / 256 ^ 3 % 256
  b3 := t / 256 ^ 2 % 256
  b4 := t / 256 ^ 1 % 256
  b5 := t % 256
  b6 := 0x70 ||| (r.r0 &&& 0x0F)
  b7 := r.r1
  b8 := 0x80 ||| (r.r2 &&& 0x3F)
  b9 := r.r3
  b10 := r.r4
  b11 := r.r5
  b12 := r.r6
  b13 := r.r7
  b14 := r.r8
  b15 := r.r9

/-- Helper: setting the version nibble over four low bits always reads back
as version 7. -/
theorem version_nibble_or (x : Nat) (hx : x < 16) : (0x70 ||| x) >>> 4 = 0x07 := by
  have : ∀ y : Fin 16, (0x70 ||| y.val) >>> 4 = 0x07 := by decide
  exact this ⟨x, hx⟩

/-- C3: frame effect of metadata injection.  For every metadata record and
every base value, the rewriting step of `generate_with_metadata` leaves
bytes 0-5 (timestamp), byte 8 (variant) and bytes 14-15 (random margin)
exactly as in the base value, sets bytes 6-7 to the version nibble plus the
encoded 12-bit OS field, sets byte 9 to the low byte of the 16-bit hostname
hash, sets bytes 10-13 to the big-endian 32-bit hash of hostname concatenated
with the user agent when present (hostname alone otherwise), and keeps the
high nibble of byte 6 equal to the version-7 marker 0x7. -/
theorem c3_inject_frame (m : ClientMetadata) (u : UuidBytes) :
    (inject_metadata m u).b0 = u.b0 ∧
    (inject_metadata m u).b1 = u.b1 ∧
    (inject_metadata m u).b2 = u.b2 ∧
    (inject_metadata m u).b3 = u.b3 ∧
    (inject_metadata m u).b4 = u.b4 ∧
    (inject_metadata m u).b5 = u.b5 ∧
    (inject_metadata m u).b8 = u.b8 ∧
    (inject_metadata m u).b14 = u.b14 ∧
    (inject_metadata m u).b15 = u.b15 ∧
    (inject_metadata m u).b6 =
      0x70 ||| ((encode_os_metadata m.os_type m.os_version >>> 8) &&& 0x0F) ∧
    (inject_metadata m u).b6 >>> 4 = 0x07 ∧
    (inject_metadata m u).b7 = encode_os_metadata m.os_type m.os_version % 256 ∧
    (inject_metadata m u).b9 = hash_to_u16 m.hostname &&& 0xFF ∧
    (inject_metadata m u).b10 = (hash_to_u32 (extended_input m) >>> 24) % 256 ∧
    (inject_metadata m u).b11 = (hash_to_u32 (extended_input m) >>> 16) % 256 ∧
    (inject_metadata m u).b12 = (hash_to_u32 (extended_input m) >>> 8) % 256 ∧
    (inject_metadata m u).b13 = hash_to_u32 (extended_input m) % 256 := by
  refine ⟨rfl, rfl, rfl, rfl, rfl, rfl, rfl, rfl, rfl, rfl, ?_, rfl, rfl, rfl, rfl, rfl, rfl⟩
  exact version_nibble_or _ (Nat.and_lt_two_pow _ (by decide : (0x0F : Nat) < 2 ^ 4))

/-- Embeds `UuidFormat` of `src/crates/utils/gen-id/src/uuid/generator.rs`. -/
inductive UuidFormat where
  | Standard
  | Simple
  | StandardUppercase
  | SimpleUppercase
deriving DecidableEq, Repr

/-- Lowercase hexadecimal digit character for a value 0-15 (48 is the code of
the zero digit, 97 the code of the letter a). -/
def hexDigit (v : Nat) : Char :=
  if v < 10 then Char.ofNat (48 + v) else Char.ofNat (87 + v)

/-- ASCII uppercase conversion of one character, as `str::to_uppercase`
behaves on the ASCII strings produced by the formatter. -/
def charUpper (c : Char) : Char :=
  if 'a' ≤ c ∧ c ≤ 'z' then Char.ofNat (c.toNat - 32) else c

/-- Two lowercase hex digits of one byte, high nibble first. -/
def byteToHex (b : Nat) : List Char :=
  [hexDigit (b / 16), hexDigit (b % 16)]

/-- Modelled from the spec: the hex rendering done by `uuid::fmt::Simple`
(external crate).  Per the spec (section 4.3), a value renders as 32
lowercase hex digits, two per byte, most significant byte first. -/
def bytesToHex : List Nat → List Char
  | [] => []
  | b :: bs => byteToHex b ++ bytesToHex bs

/-- Modelled from the spec: the hyphen grouping done by
`uuid::fmt::Hyphenated` (external crate).  Per the spec (sections 4.3 and 6),
the 32 hex digits are grouped 8-4-4-4-12 with hyphen separators. -/
def hyphenate (h : List Char) : List Char :=
  h.take 8 ++ '-' :: ((h.drop 8).take 4 ++ '-' :: ((h.drop 12).take 4 ++
    '-' :: ((h.drop 16).take 4 ++ '-' :: h.drop 20)))

/-- Embeds `UuidGenerator::format_uuid` of
`src/crates/utils/gen-id/src/uuid/generator.rs`: render per the configured
format (hyphenated or simple, lowercase or uppercase), then prepend the
configured literal prefix if set. -/
def format_uuid (format : UuidFormat) (pfx : Option (List Char)) (u : UuidBytes) : List Char :=
  let h := bytesToHex u.toList
  let formatted :=
    match format with
    | .Standard => hyphenate h
    | .Simple => h
    | .StandardUppercase => (hyphenate h).map charUpper
    | .SimpleUppercase => h.map charUpper
  match pfx with
  | some p => p ++ formatted
  | none => formatted

/-- Embeds `UuidGenerator::generate_with_metadata` of
`src/crates/utils/gen-id/src/uuid/generator.rs` for a generator configured
with version 7, the given format and the given prefix: build a fresh
version-7 value from the ambient timestamp and random bytes, rewrite the
payload bytes from the metadata record, and format the result. -/
def generate_with_metadata (format : UuidFormat) (pfx : Option (List Char))
    (metadata : ClientMetadata) (t : Nat) (r : V7Rand) : List Char :=
  format_uuid format pfx (inject_metadata metadata (mkV7 t r))

/-- Embeds `UuidGenerator::generate` of
`src/crates/utils/gen-id/src/uuid/generator.rs` for a generator configured
with version 7: format a fresh version-7 value. -/
def generate_v7 (format : UuidFormat) (pfx : Option (List Char))
    (t : Nat) (r : V7Rand) : List Char :=
  format_uuid format pfx (mkV7 t r)

/-- Hexadecimal value of one character, accepting both cases; `none` on
non-hex characters (48/97/65 are the codes of zero, lowercase a and uppercase
A). -/
def hexVal (c : Char) : Option Nat :=
  if '0' ≤ c ∧ c ≤ '9' then some (c.toNat - 48)
  else if 'a' ≤ c ∧ c ≤ 'f' then some (c.toNat - 87)
  else if 'A' ≤ c ∧ c ≤ 'F' then some (c.toNat - 55)
  else none

/-- Decode a character list two hex digits at a time into bytes; fails on an
odd length or any non-hex character. -/
def parseHexPairs : List Char → Option (List Nat)
  | [] => some []
  | [_] => none
  | c1 :: c2 :: rest =>
    match hexVal c1, hexVal c2, parseHexPairs rest with
    | some hi, some lo, some bs => some ((hi * 16 + lo) :: bs)
    | _, _, _ => none

/-- Check the four hyphen positions (8, 13, 18, 23) of a 36-character
hyphenated form and return the 32 non-hyphen characters. -/
def splitDashes (s : List Char) : Option (List Char) :=
  if s.length = 36 ∧ s[8]? = some '-' ∧ s[13]? = some '-' ∧
      s[18]? = some '-' ∧ s[23]? = some '-' then
    some (s.take 8 ++ (s.drop 9).take 4 ++ (s.drop 14).take 4 ++
      (s.drop 19).take 4 ++ s.drop 24)
  else none

/-- Modelled from the spec: `Uuid::parse_str` (external `uuid` crate).  Per
the spec (section 4.4), after normalization the text must be a syntactically
valid identifier: either the 32-hex-digit compact form or the 36-character
hyphenated form with hyphens at positions 8, 13, 18 and 23, case-insensitive;
anything else (wrong length, non-hex characters, malformed hyphen positions)
is a parse error, embedded as `none`. -/
def parse_str (s : List Char) : Option (List Nat) :=
  if s.length = 32 then parseHexPairs s
  else
    match splitDashes s with
    | some h => parseHexPairs h
    | none => none

/-- Pack a decoded 16-byte list into a `UuidBytes` value
(`Uuid::from_bytes`). -/
def UuidBytes.ofList? : List Nat → Option UuidBytes
  | [a0, a1, a2, a3, a4, a5, a6, a7, a8, a9, a10, a11, a12, a13, a14, a15] =>
    some ⟨a0, a1, a2, a3, a4, a5, a6, a7, a8, a9, a10, a11, a12, a13, a14, a15⟩
  | _ => none

/-- Fuel-indexed repeated strip of a leading pattern, the semantics of the
Rust `str::trim_start_matches` with a string pattern: remove the pattern from
the front as many times as it matches.  Any fuel of at least the length of
the string computes the fixpoint, since every strip removes at least one
character. -/
def trimStartAux (pat : List Char) : Nat → List Char → List Char
  | 0, s => s
  | fuel + 1, s =>
    if pat ≠ [] ∧ pat.isPrefixOf s then trimStartAux pat fuel (s.drop pat.length) else s

/-- Repeatedly strip a leading pattern (`str::trim_start_matches`). -/
def trimStartList (pat s : List Char) : List Char :=
  trimStartAux pat s.length s

/-- Embeds `clean_uuid_input` of `src/crates/utils/gen-id/src/uuid/parser.rs`
(the copy in `src/crates/utils/gen-id/src/lib.rs` is identical):
`trim_start_matches("urn:uuid:")`, then `trim_start_matches("uuid:")`, then
`trim_start_matches('{')`, then `trim_end_matches('}')`.  For the single-char
patterns the repeated strip is a `dropWhile` from the matching end. -/
def clean_uuid_input (s : List Char) : List Char :=
  let s1 := trimStartList "urn:uuid:".toList s
  let s2 := trimStartList "uuid:".toList s1
  let s3 := s2.dropWhile (fun c => c = '{')
  (s3.reverse.dropWhile (fun c => c = '}')).reverse

/-- Embeds `parse_uuid` of `src/crates/utils/gen-id/src/uuid/parser.rs`:
normalize, then parse; parse errors are embedded as `none`. -/
def parse_uuid (s : List Char) : Option UuidBytes :=
  (parse_str (clean_uuid_input s)).bind UuidBytes.ofList?

/-- Embeds `parse_uuid_with_metadata` of
`src/crates/utils/gen-id/src/uuid/parser.rs`: parse as `parse_uuid`, then
pair the value with the (optional) extracted metadata. -/
def parse_uuid_with_metadata (s : List Char) : Option (UuidBytes × Option ExtractedMetadata) :=
  (parse_uuid s).map (fun u => (u, extract_metadata u))

/-- C6: version-nibble dispatch of `parse_uuid_with_metadata`.  Whenever the
input text parses, the function succeeds and pairs the parsed value with
`extract_metadata` of it; the metadata component is `none` exactly when the
high nibble of byte 6 is not the version-7 marker, and whenever that nibble
is 0x7 the component is unconditionally `some` extracted record — including
for plain version-7 values whose payload bytes are just random bits. -/
theorem c6_version_dispatch (s : List Char) (u : UuidBytes)
    (h : parse_uuid s = some u) :
    parse_uuid_with_metadata s = some (u, extract_metadata u) ∧
    (u.b6 >>> 4 ≠ 0x07 → extract_metadata u = none) ∧
    (u.b6 >>> 4 = 0x07 → ∃ em, extract_metadata u = some em) := by
  refine ⟨?_, ?_, ?_⟩
  · unfold parse_uuid_with_metadata
    rw [h]
    rfl
  · intro hne
    unfold extract_metadata
    rw [if_pos hne]
  · intro heq
    unfold extract_metadata
    rw [if_neg (by rw [heq]; exact fun hc => hc rfl)]
    exact ⟨_, rfl⟩

/-- C6 witness: the theorem applied to a concrete version-4-style text, whose
version nibble is 4 and which therefore parses with no metadata. -/
theorem c6_version_dispatch_witness :
    parse_uuid_with_metadata "550e8400-e29b-41d4-a716-446655440000".toList =
      some (⟨85, 14, 132, 0, 226, 155, 65, 212, 167, 22, 68, 102, 85, 68, 0, 0⟩,
        extract_metadata ⟨85, 14, 132, 0, 226, 155, 65, 212, 167, 22, 68, 102, 85, 68, 0, 0⟩) ∧
    ((65 : Nat) >>> 4 ≠ 0x07 →
      extract_metadata ⟨85, 14, 132, 0, 226, 155, 65, 212, 167, 22, 68, 102, 85, 68, 0, 0⟩ = none) ∧
    ((65 : Nat) >>> 4 = 0x07 →
      ∃ em, extract_metadata ⟨85, 14, 132, 0, 226, 155, 65, 212, 167, 22, 68, 102, 85, 68, 0, 0⟩ =
        some em) :=
  c6_version_dispatch "550e8400-e29b-41d4-a716-446655440000".toList
    ⟨85, 14, 132, 0, 226, 155, 65, 212, 167, 22, 68, 102, 85, 68, 0, 0⟩ (by decide)

/-- Helper: `hexVal` inverts `hexDigit` on nibble values. -/
theorem hexVal_hexDigit : ∀ v : Fin 16, hexVal (hexDigit v.val) = some v.val := by
  decide

/-- Helper: `hexVal` also inverts the uppercased digit. -/
theorem hexVal_upper_hexDigit : ∀ v : Fin 16, hexVal (charUpper (hexDigit v.val)) = some v.val := by
  decide

/-- Helper: one step of `parseHexPairs` over two characters with known hex
values. -/
theorem parseHexPairs_cons2 (c1 c2 : Char) (hi lo : Nat) (rest : List Char)
    (h1 : hexVal c1 = some hi) (h2 : hexVal c2 = some lo) :
    parseHexPairs (c1 :: c2 :: rest) =
      (parseHexPairs rest).map (fun bs => (hi * 16 + lo) :: bs) := by
  show (match hexVal c1, hexVal c2, parseHexPairs rest with
    | some hi, some lo, some bs => some ((hi * 16 + lo) :: bs)
    | _, _, _ => none) = _
  rw [h1, h2]
  cases parseHexPairs rest <;> rfl

/-- Helper: `parseHexPairs` decodes the lowercase rendering of any 8-bit byte
list back to the bytes. -/
theorem parseHexPairs_bytesToHex :
    ∀ L : List Nat, (∀ b ∈ L, b < 256) → parseHexPairs (bytesToHex L) = some L := by
  intro L
  induction L with
  | nil => intro _; rfl
  | cons b bs ih =>
    intro h
    have hb : b < 256 := h b (List.mem_cons_self b bs)
    have hdiv : b / 16 < 16 := by omega
    have hmod : b % 16 < 16 := by omega
    show parseHexPairs (hexDigit (b / 16) :: hexDigit (b % 16) :: bytesToHex bs) = _
    rw [parseHexPairs_cons2 _ _ (b / 16) (b % 16) _
      (hexVal_hexDigit ⟨b / 16, hdiv⟩) (hexVal_hexDigit ⟨b % 16, hmod⟩)]
    rw [ih (fun x hx => h x (List.mem_cons_of_mem b hx))]
    have hrec : b / 16 * 16 + b % 16 = b := by omega
    simp [hrec]

/-- Helper: `parseHexPairs` likewise decodes the uppercased rendering. -/
theorem parseHexPairs_bytesToHex_upper :
    ∀ L : List Nat, (∀ b ∈ L, b < 256) →
      parseHexPairs ((bytesToHex L).map charUpper) = some L := by
  intro L
  induction L with
  | nil => intro _; rfl
  | cons b bs ih =>
    intro h
    have hb : b < 256 := h b (List.mem_cons_self b bs)
    have hdiv : b / 16 < 16 := by omega
    have hmod : b % 16 < 16 := by omega
    show parseHexPairs (charUpper (hexDigit (b / 16)) :: charUpper (hexDigit (b % 16)) ::
      (bytesToHex bs).map charUpper) = _
    rw [parseHexPairs_cons2 _ _ (b / 16) (b % 16) _
      (hexVal_upper_hexDigit ⟨b / 16, hdiv⟩) (hexVal_upper_hexDigit ⟨b % 16, hmod⟩)]
    rw [ih (fun x hx => h x (List.mem_cons_of_mem b hx))]
    have hrec : b / 16 * 16 + b % 16 = b := by omega
    simp [hrec]

/-- Helper: the compact rendering of a byte list has two characters per
byte. -/
theorem length_bytesToHex : ∀ L : List Nat, (bytesToHex L).length = 2 * L.length := by
  intro L
  induction L with
  | nil => rfl
  | cons b bs ih =>
    show (byteToHex b ++ bytesToHex bs).length = _
    rw [List.length_append, ih]
    simp [byteToHex]
    omega

/-- Helper: `splitDashes` inverts `hyphenate` on 32-character bodies. -/
theorem splitDashes_hyphenate (h : List Char) (hl : h.length = 32) :
    splitDashes (hyphenate h) = some h := by
  have lA : (h.take 8).length = 8 := by rw [List.length_take, hl]; omega
  have lB : ((h.drop 8).take 4).length = 4 := by
    rw [List.length_take, List.length_drop, hl]; omega
  have lC : ((h.drop 12).take 4).length = 4 := by
    rw [List.length_take, List.length_drop, hl]; omega
  have lD : ((h.drop 16).take 4).length = 4 := by
    rw [List.length_take, List.length_drop, hl]; omega
  have lE : (h.drop 20).length = 12 := by rw [List.length_drop, hl]
  have v1 : hyphenate h = (h.take 8 ++ ['-']) ++
      ((h.drop 8).take 4 ++ '-' :: ((h.drop 12).take 4 ++
        '-' :: ((h.drop 16).take 4 ++ '-' :: h.drop 20))) := by
    simp [hyphenate, List.append_assoc]
  have v2 : hyphenate h = (h.take 8 ++ '-' :: ((h.drop 8).take 4 ++ ['-'])) ++
      ((h.drop 12).take 4 ++ '-' :: ((h.drop 16).take 4 ++ '-' :: h.drop 20)) := by
    simp [hyphenate, List.append_assoc]
  have v3 : hyphenate h = (h.take 8 ++ '-' :: ((h.drop 8).take 4 ++
      '-' :: ((h.drop 12).take 4 ++ ['-']))) ++
      ((h.drop 16).take 4 ++ '-' :: h.drop 20) := by
    simp [hyphenate, List.append_assoc]
  have v4 : hyphenate h = (h.take 8 ++ '-' :: ((h.drop 8).take 4 ++
      '-' :: ((h.drop 12).take 4 ++ '-' :: ((h.drop 16).take 4 ++ ['-'])))) ++
      h.drop 20 := by
    simp [hyphenate, List.append_assoc]
  have hlen : (hyphenate h).length = 36 := by
    unfold hyphenate
    simp only [List.length_append, List.length_cons, lA, lB, lC, lD, lE]
  have h8 : (hyphenate h)[8]? = some '-' := by
    unfold hyphenate
    rw [List.getElem?_append_right (by rw [lA]), lA]
    simp
  have h13 : (hyphenate h)[13]? = some '-' := by
    rw [v1, List.getElem?_append_right (by simp [lA]), (by simp [lA] : (h.take 8 ++ ['-']).length = 9)]
    rw [List.getElem?_append_right (by rw [lB]), lB]
    simp
  have h18 : (hyphenate h)[18]? = some '-' := by
    rw [v2, List.getElem?_append_right (by simp [lA, lB]),
      (by simp [lA, lB] : (h.take 8 ++ '-' :: ((h.drop 8).take 4 ++ ['-'])).length = 14)]
    rw [List.getElem?_append_right (by rw [lC]), lC]
    simp
  have h23 : (hyphenate h)[23]? = some '-' := by
    rw [v3, List.getElem?_append_right (by simp [lA, lB, lC]),
      (by simp [lA, lB, lC] :
        (h.take 8 ++ '-' :: ((h.drop 8).take 4 ++ '-' :: ((h.drop 12).take 4 ++ ['-']))).length = 19)]
    rw [List.getElem?_append_right (by rw [lD]), lD]
    simp
  unfold splitDashes
  rw [if_pos ⟨hlen, h8, h13, h18, h23⟩]
  have t8 : (hyphenate h).take 8 = h.take 8 := by
    unfold hyphenate
    rw [List.take_append_of_le_length (by rw [lA]), List.take_of_length_le (by rw [lA])]
  have d9 : (hyphenate h).drop 9 = (h.drop 8).take 4 ++ '-' :: ((h.drop 12).take 4 ++
      '-' :: ((h.drop 16).take 4 ++ '-' :: h.drop 20)) := by
    rw [v1]
    exact List.drop_left' (by simp [lA])
  have d14 : (hyphenate h).drop 14 = (h.drop 12).take 4 ++
      '-' :: ((h.drop 16).take 4 ++ '-' :: h.drop 20) := by
    rw [v2]
    exact List.drop_left' (by simp [lA, lB])
  have d19 : (hyphenate h).drop 19 = (h.drop 16).take 4 ++ '-' :: h.drop 20 := by
    rw [v3]
    exact List.drop_left' (by simp [lA, lB, lC])
  have d24 : (hyphenate h).drop 24 = h.drop 20 := by
    rw [v4]
    exact List.drop_left' (by simp [lA, lB, lC, lD])
  rw [t8, d9, d14, d19, d24]
  rw [List.take_left' lB, List.take_left' lC, List.take_left' lD]
  have e1 : h.take 8 ++ (h.drop 8).take 4 = h.take 12 := by
    rw [← List.take_add]
  have e2 : h.take 12 ++ (h.drop 12).take 4 = h.take 16 := by
    rw [← List.take_add]
  have e3 : h.take 16 ++ (h.drop 16).take 4 = h.take 20 := by
    rw [← List.take_add]
  rw [e1, e2, e3, List.take_append_drop]

/-- Helper: a hyphenated body is 36 characters long. -/
theorem length_hyphenate (h : List Char) (hl : h.length = 32) :
    (hyphenate h).length = 36 := by
  unfold hyphenate
  simp only [List.length_append, List.length_cons, List.length_take, List.length_drop, hl]
  omega

/-- Helper: uppercasing commutes with hyphen grouping, since the hyphen is
not a letter. -/
theorem map_charUpper_hyphenate (h : List Char) :
    (hyphenate h).map charUpper = hyphenate (h.map charUpper) := by
  unfold hyphenate
  simp only [List.map_append, List.map_cons, List.map_take, List.map_drop]
  rfl

/-- Helper: `parse_str` inverts the compact lowercase rendering. -/
theorem parse_str_simple (L : List Nat) (hlen : L.length = 16)
    (hb : ∀ b ∈ L, b < 256) : parse_str (bytesToHex L) = some L := by
  unfold parse_str
  rw [if_pos (by rw [length_bytesToHex, hlen])]
  exact parseHexPairs_bytesToHex L hb

/-- Helper: `parse_str` inverts the compact uppercase rendering. -/
theorem parse_str_simple_upper (L : List Nat) (hlen : L.length = 16)
    (hb : ∀ b ∈ L, b < 256) : parse_str ((bytesToHex L).map charUpper) = some L := by
  unfold parse_str
  rw [if_pos (by rw [List.length_map, length_bytesToHex, hlen])]
  exact parseHexPairs_bytesToHex_upper L hb

/-- Helper: `parse_str` inverts the hyphenated lowercase rendering. -/
theorem parse_str_hyphenated (L : List Nat) (hlen : L.length = 16)
    (hb : ∀ b ∈ L, b < 256) : parse_str (hyphenate (bytesToHex L)) = some L := by
  have h32 : (bytesToHex L).length = 32 := by rw [length_bytesToHex, hlen]
  unfold parse_str
  rw [if_neg (by rw [length_hyphenate _ h32]; omega)]
  rw [splitDashes_hyphenate _ h32]
  exact parseHexPairs_bytesToHex L hb

/-- Helper: `parse_str` inverts the hyphenated uppercase rendering. -/
theorem parse_str_hyphenated_upper (L : List Nat) (hlen : L.length = 16)
    (hb : ∀ b ∈ L, b < 256) :
    parse_str ((hyphenate (bytesToHex L)).map charUpper) = some L := by
  rw [map_charUpper_hyphenate]
  have h32 : ((bytesToHex L).map charUpper).length = 32 := by
    rw [List.length_map, length_bytesToHex, hlen]
  unfold parse_str
  rw [if_neg (by rw [length_hyphenate _ h32]; omega)]
  rw [splitDashes_hyphenate _ h32]
  exact parseHexPairs_bytesToHex_upper L hb

/-- Helper: every character consumed by a successful `parseHexPairs` run is a
hex digit. -/
theorem parseHexPairs_mem :
    ∀ (s : List Char) (L : List Nat), parseHexPairs s = some L →
      ∀ c ∈ s, (hexVal c).isSome
  | [], _, _ => by intro c hc; exact absurd hc (by simp)
  | [c0], L, hp => by exact absurd hp (by simp [parseHexPairs])
  | c1 :: c2 :: rest, L, hp => by
    intro c hc
    cases h1 : hexVal c1 with
    | none => simp only [parseHexPairs, h1] at hp; exact Option.noConfusion hp
    | some hi =>
      cases h2 : hexVal c2 with
      | none => simp only [parseHexPairs, h1, h2] at hp; exact Option.noConfusion hp
      | some lo =>
        cases hr : parseHexPairs rest with
        | none => simp only [parseHexPairs, h1, h2, hr] at hp; exact Option.noConfusion hp
        | some bs =>
          rcases List.mem_cons.mp hc with rfl | hc2
          · simp [h1]
          · rcases List.mem_cons.mp hc2 with rfl | hc3
            · simp [h2]
            · exact parseHexPairs_mem rest bs hr c hc3

/-- Helper: a hex digit is not one of the decoration characters stripped by
normalization. -/
theorem hexVal_isSome_ne (c : Char) (h : (hexVal c).isSome) :
    c ≠ 'u' ∧ c ≠ '{' ∧ c ≠ '}' := by
  refine ⟨?_, ?_, ?_⟩ <;> intro heq <;> subst heq <;> exact absurd h (by decide)

/-- Helper: the first and last characters of any text accepted by
`parse_str` are hex digits. -/
theorem parse_str_first_last (s : List Char) (L : List Nat)
    (hp : parse_str s = some L) :
    ∃ c₀ cl : Char, s.head? = some c₀ ∧ s.getLast? = some cl ∧
      (hexVal c₀).isSome ∧ (hexVal cl).isSome := by
  unfold parse_str at hp
  by_cases h32 : s.length = 32
  · rw [if_pos h32] at hp
    have hmem := parseHexPairs_mem s L hp
    have hne : s ≠ [] := by intro he; rw [he] at h32; simp at h32
    obtain ⟨c₀, t, rfl⟩ := List.exists_cons_of_ne_nil hne
    refine ⟨c₀, (c₀ :: t).getLast (by simp), rfl, List.getLast?_eq_getLast _ (by simp), ?_, ?_⟩
    · exact hmem c₀ (List.mem_cons_self _ _)
    · exact hmem _ (List.getLast_mem _)
  · rw [if_neg h32] at hp
    cases hd : splitDashes s with
    | none => rw [hd] at hp; exact absurd hp (by simp)
    | some grouping =>
      rw [hd] at hp
      unfold splitDashes at hd
      by_cases hcond : s.length = 36 ∧ s[8]? = some '-' ∧ s[13]? = some '-' ∧
          s[18]? = some '-' ∧ s[23]? = some '-'
      · rw [if_pos hcond] at hd
        obtain ⟨hlen, -, -, -, -⟩ := hcond
        injection hd with hd
        have hmem := parseHexPairs_mem _ _ hp
        have hne : s ≠ [] := by intro he; rw [he] at hlen; simp at hlen
        obtain ⟨c₀, t, rfl⟩ := List.exists_cons_of_ne_nil hne
        have h35 : (c₀ :: t)[35]? = some ((c₀ :: t).getLast (by simp)) := by
          have h1 := List.getLast?_eq_getElem? (c₀ :: t)
          rw [hlen] at h1
          have h36 : (36 : Nat) - 1 = 35 := rfl
          rw [h36] at h1
          rw [← h1]
          exact List.getLast?_eq_getLast _ (by simp)
        refine ⟨c₀, (c₀ :: t).getLast (by simp), rfl,
          List.getLast?_eq_getLast _ (by simp), ?_, ?_⟩
        · refine hmem c₀ ?_
          rw [← hd]
          have htake : (c₀ :: t).take 8 = c₀ :: t.take 7 := rfl
          refine List.mem_append.mpr (Or.inl ?_)
          refine List.mem_append.mpr (Or.inl ?_)
          refine List.mem_append.mpr (Or.inl ?_)
          refine List.mem_append.mpr (Or.inl ?_)
          rw [htake]
          exact List.mem_cons_self _ _
        · refine hmem _ ?_
          rw [← hd]
          refine List.mem_append.mpr (Or.inr ?_)
          have hdrop : ((c₀ :: t).drop 24)[11]? = (c₀ :: t)[35]? := by
            rw [List.getElem?_drop]
          refine List.getElem?_mem (l := (c₀ :: t).drop 24) (n := 11) ?_
          rw [hdrop, h35]
      · rw [if_neg hcond] at hd
        exact absurd hd (by simp)

/-- Helper: a pattern whose head differs from the head of the string is not a
prefix of it. -/
theorem not_isPrefixOf_of_head_ne (p c : Char) (ps t : List Char) (h : c ≠ p) :
    ¬ (p :: ps).isPrefixOf (c :: t) := by
  simp only [List.isPrefixOf, Bool.and_eq_true, beq_iff_eq]
  rintro ⟨heq, -⟩
  exact h heq.symm

/-- Helper: any amount of fuel leaves a string alone when the pattern does
not match its front. -/
theorem trimStartAux_no_match (pat : List Char) (fuel : Nat) (s : List Char)
    (h : ¬ pat.isPrefixOf s) : trimStartAux pat fuel s = s := by
  cases fuel with
  | zero => rfl
  | succ n =>
    unfold trimStartAux
    rw [if_neg (fun hc => h hc.2)]

/-- Helper: `trim_start_matches` is the identity when the pattern does not
match the front. -/
theorem trimStartList_no_match (pat s : List Char) (h : ¬ pat.isPrefixOf s) :
    trimStartList pat s = s :=
  trimStartAux_no_match pat s.length s h

/-- Helper: the literal character list of the URN scheme token. -/
theorem urn_toList : "urn:uuid:".toList = ['u', 'r', 'n', ':', 'u', 'u', 'i', 'd', ':'] := rfl

/-- Helper: the literal character list of the bare scheme token. -/
theorem uuid_toList : "uuid:".toList = ['u', 'u', 'i', 'd', ':'] := rfl

/-- Helper: normalization does not change a text that `parse_str` accepts,
because such a text begins and ends with hex digits. -/
theorem valid_shape (s : List Char) (L : List Nat) (hp : parse_str s = some L) :
    (∃ c₀ T, s = c₀ :: T ∧ c₀ ≠ 'u' ∧ c₀ ≠ '{') ∧
    trimStartList "urn:uuid:".toList s = s ∧
    trimStartList "uuid:".toList s = s ∧
    s.dropWhile (fun c => c = '{') = s ∧
    s.reverse.dropWhile (fun c => c = '}') = s.reverse := by
  obtain ⟨c₀, cl, hh, hlast, h0some, hlsome⟩ := parse_str_first_last s L hp
  obtain ⟨hu0, hbr0, -⟩ := hexVal_isSome_ne c₀ h0some
  obtain ⟨-, -, hbrl⟩ := hexVal_isSome_ne cl hlsome
  obtain ⟨T, rfl⟩ : ∃ T, s = c₀ :: T := by
    cases s with
    | nil => exact Option.noConfusion hh
    | cons a T => exact ⟨T, by injection hh with hh; rw [hh]⟩
  refine ⟨⟨c₀, T, rfl, hu0, hbr0⟩, ?_, ?_, ?_, ?_⟩
  · rw [urn_toList]
    exact trimStartList_no_match _ _ (not_isPrefixOf_of_head_ne _ _ _ _ hu0)
  · rw [uuid_toList]
    exact trimStartList_no_match _ _ (not_isPrefixOf_of_head_ne _ _ _ _ hu0)
  · rw [List.dropWhile_cons, if_neg (by simpa using hbr0)]
  · obtain ⟨r, hr⟩ : ∃ r, (c₀ :: T).reverse = cl :: r := by
      have h1 : (c₀ :: T).reverse.head? = some cl := by
        rw [List.head?_reverse]
        exact hlast
      cases hrev : (c₀ :: T).reverse with
      | nil => rw [hrev] at h1; exact Option.noConfusion h1
      | cons a r =>
        rw [hrev] at h1
        injection h1 with h1
        exact ⟨r, by rw [h1]⟩
    rw [hr, List.dropWhile_cons, if_neg (by simpa using hbrl)]

theorem clean_of_valid (s : List Char) (L : List Nat) (hp : parse_str s = some L) :
    clean_uuid_input s = s := by
  obtain ⟨-, f1, f2, f3, f4⟩ := valid_shape s L hp
  unfold clean_uuid_input
  dsimp only
  rw [f1, f2, f3, f4, List.reverse_reverse]

/-- Helper: `parse_uuid` inverts `format_uuid` (without prefix) for every
format and every well-formed value. -/
theorem parse_uuid_format (f : UuidFormat) (u : UuidBytes) (hwf : u.Wf) :
    parse_uuid (format_uuid f none u) = some u := by
  obtain ⟨h0, h1, h2, h3, h4, h5, h6, h7, h8, h9, h10, h11, h12, h13, h14, h15⟩ := hwf
  have hlen : u.toList.length = 16 := rfl
  have hmem : ∀ b ∈ u.toList, b < 256 := by
    intro b hb
    simp only [UuidBytes.toList, List.mem_cons, List.not_mem_nil, or_false] at hb
    rcases hb with rfl | rfl | rfl | rfl | rfl | rfl | rfl | rfl |
      rfl | rfl | rfl | rfl | rfl | rfl | rfl | rfl <;> assumption
  cases f with
  | Standard =>
    have hps := parse_str_hyphenated u.toList hlen hmem
    show (parse_str (clean_uuid_input (hyphenate (bytesToHex u.toList)))).bind
      UuidBytes.ofList? = some u
    rw [clean_of_valid _ _ hps, hps]
    rfl
  | Simple =>
    have hps := parse_str_simple u.toList hlen hmem
    show (parse_str (clean_uuid_input (bytesToHex u.toList))).bind
      UuidBytes.ofList? = some u
    rw [clean_of_valid _ _ hps, hps]
    rfl
  | StandardUppercase =>
    have hps := parse_str_hyphenated_upper u.toList hlen hmem
    show (parse_str (clean_uuid_input ((hyphenate (bytesToHex u.toList)).map charUpper))).bind
      UuidBytes.ofList? = some u
    rw [clean_of_valid _ _ hps, hps]
    rfl
  | SimpleUppercase =>
    have hps := parse_str_simple_upper u.toList hlen hmem
    show (parse_str (clean_uuid_input ((bytesToHex u.toList).map charUpper))).bind
      UuidBytes.ofList? = some u
    rw [clean_of_valid _ _ hps, hps]
    rfl

/-- Helper: the encoded OS field is a 12-bit value. -/
theorem encode_os_metadata_lt (t : OsType) (v : Nat × Nat) :
    encode_os_metadata t v < 2 ^ 12 := by
  have h1 : t.encode <<< 9 < 2 ^ 12 := by cases t <;> decide
  have hmaj : v.1 &&& 0x1F < 32 := Nat.and_lt_two_pow _ (by decide : (0x1F : Nat) < 2 ^ 5)
  have h2 : (v.1 &&& 0x1F) <<< 4 < 2 ^ 12 := by
    rw [Nat.shiftLeft_eq]
    have : (2 : Nat) ^ 4 = 16 := by norm_num
    rw [this]
    omega
  have h3 : v.2 &&& 0x0F < 2 ^ 12 :=
    Nat.lt_of_lt_of_le (Nat.and_lt_two_pow _ (by decide : (0x0F : Nat) < 2 ^ 4)) (by norm_num)
  exact Nat.or_lt_two_pow (Nat.or_lt_two_pow h1 h2) h3

/-- Helper: splitting a 12-bit field over the version byte (low nibble) and
the following byte, then reading it back, recovers the field. -/
theorem os_field_reassemble (e : Nat) (he : e < 2 ^ 12) :
    (((0x70 ||| ((e >>> 8) &&& 0x0F)) &&& 0x0F) <<< 8) ||| (e % 256) = e := by
  have hsh : e >>> 8 = e / 2 ^ 8 := Nat.shiftRight_eq_div_pow e 8
  have hdivlt : e >>> 8 < 2 ^ 4 := by
    rw [hsh]
    exact (Nat.div_lt_iff_lt_mul (by norm_num)).mpr (by norm_num at he ⊢; omega)
  have hmask1 : (e >>> 8) &&& 0x0F = e >>> 8 := by
    rw [show (0x0F : Nat) = 2 ^ 4 - 1 from rfl]
    exact Nat.and_pow_two_sub_one_of_lt_two_pow hdivlt
  rw [hmask1]
  have hmask2 : (0x70 ||| (e >>> 8)) &&& 0x0F = e >>> 8 := by
    rw [Nat.and_distrib_right, show (0x70 : Nat) &&& 0x0F = 0 from rfl, hmask1]
    exact Nat.zero_or _
  rw [hmask2, hsh, Nat.shiftLeft_eq]
  have hb : e % 256 < 2 ^ 8 := by
    have := Nat.mod_lt e (show 0 < 256 by norm_num)
    norm_num
    omega
  rw [Nat.mul_comm, ← Nat.mul_add_lt_is_or hb]
  show 256 * (e / 256) + e % 256 = e
  omega

/-- Helper: general codec round trip, shared by several claim proofs. -/
theorem decode_encode_os (t : OsType) (v : Nat × Nat) :
    decode_os_metadata (encode_os_metadata t v) =
      (t, (v.1 &&& 0x1F, v.2 &&& 0x0F)) := by
  obtain ⟨maj, minor⟩ := v
  have hmaj : maj &&& 0x1F < 32 := Nat.and_lt_two_pow maj (by decide : (0x1F : Nat) < 2 ^ 5)
  have hminor : minor &&& 0x0F < 16 := Nat.and_lt_two_pow minor (by decide : (0x0F : Nat) < 2 ^ 4)
  rw [encode_os_metadata_mask]
  exact decode_encode_masked t ⟨maj &&& 0x1F, hmaj⟩ ⟨minor &&& 0x0F, hminor⟩

/-- Helper: a metadata-bearing value built on a well-formed random draw has
8-bit bytes throughout. -/
theorem inject_mkV7_wf (m : ClientMetadata) (t : Nat) (r : V7Rand) (hr : r.Wf) :
    (inject_metadata m (mkV7 t r)).Wf := by
  obtain ⟨hr0, hr1, hr2, hr3, hr4, hr5, hr6, hr7, hr8, hr9⟩ := hr
  have h16le : (16 : Nat) ≤ 2 ^ 8 := by norm_num
  have h64le : (64 : Nat) ≤ 2 ^ 8 := by norm_num
  refine ⟨?_, ?_, ?_, ?_, ?_, ?_, ?_, ?_, ?_, ?_, ?_, ?_, ?_, ?_, ?_, ?_⟩ <;>
    dsimp only [inject_metadata, mkV7]
  · exact Nat.mod_lt _ (by norm_num)
  · exact Nat.mod_lt _ (by norm_num)
  · exact Nat.mod_lt _ (by norm_num)
  · exact Nat.mod_lt _ (by norm_num)
  · exact Nat.mod_lt _ (by norm_num)
  · exact Nat.mod_lt _ (by norm_num)
  · exact Nat.or_lt_two_pow (by decide : (0x70 : Nat) < 2 ^ 8)
      (Nat.lt_of_lt_of_le (Nat.and_lt_two_pow _ (by decide : (0x0F : Nat) < 2 ^ 4)) h16le)
  · exact Nat.mod_lt _ (by norm_num)
  · exact Nat.or_lt_two_pow (by decide : (0x80 : Nat) < 2 ^ 8)
      (Nat.lt_of_lt_of_le (Nat.and_lt_two_pow _ (by decide : (0x3F : Nat) < 2 ^ 6)) h64le)
  · exact Nat.and_lt_two_pow _ (by decide : (0xFF : Nat) < 2 ^ 8)
  · exact Nat.mod_lt _ (by norm_num)
  · exact Nat.mod_lt _ (by norm_num)
  · exact Nat.mod_lt _ (by norm_num)
  · exact Nat.mod_lt _ (by norm_num)
  · exact hr8
  · exact hr9

/-- C2: end-to-end metadata round trip.  For every metadata record, every
output format, every timestamp and every (well-formed) random draw, parsing
the text produced by `generate_with_metadata` with `parse_uuid_with_metadata`
succeeds, returns the generated value, and yields an extracted record whose
OS family equals the record's family and whose version equals the record's
version after the 5-bit/4-bit field masking. -/
theorem c2_metadata_roundtrip (m : ClientMetadata) (f : UuidFormat) (t : Nat)
    (r : V7Rand) (hr : r.Wf) :
    ∃ em : ExtractedMetadata,
      parse_uuid_with_metadata (generate_with_metadata f none m t r) =
        some (inject_metadata m (mkV7 t r), some em) ∧
      em.os_type = m.os_type ∧
      em.os_version = (m.os_version.1 &&& 0x1F, m.os_version.2 &&& 0x0F) := by
  have hwf := inject_mkV7_wf m t r hr
  have hparse := parse_uuid_format f (inject_metadata m (mkV7 t r)) hwf
  have h6lt : (encode_os_metadata m.os_type m.os_version >>> 8) &&& 0x0F < 16 :=
    Nat.and_lt_two_pow _ (by decide : (0x0F : Nat) < 2 ^ 4)
  have h7 : (inject_metadata m (mkV7 t r)).b6 >>> 4 = 0x07 := version_nibble_or _ h6lt
  have henc : (((inject_metadata m (mkV7 t r)).b6 &&& 0x0F) <<< 8) |||
      (inject_metadata m (mkV7 t r)).b7 = encode_os_metadata m.os_type m.os_version :=
    os_field_reassemble (encode_os_metadata m.os_type m.os_version)
      (encode_os_metadata_lt m.os_type m.os_version)
  have hext : extract_metadata (inject_metadata m (mkV7 t r)) = some
      { timestamp_ms := (inject_metadata m (mkV7 t r)).b0 * 2 ^ 40 +
          (inject_metadata m (mkV7 t r)).b1 * 2 ^ 32 +
          (inject_metadata m (mkV7 t r)).b2 * 2 ^ 24 +
          (inject_metadata m (mkV7 t r)).b3 * 2 ^ 16 +
          (inject_metadata m (mkV7 t r)).b4 * 2 ^ 8 + (inject_metadata m (mkV7 t r)).b5
        os_type := m.os_type
        os_version := (m.os_version.1 &&& 0x1F, m.os_version.2 &&& 0x0F)
        hostname_hash := (inject_metadata m (mkV7 t r)).b9
        extended_hash := (inject_metadata m (mkV7 t r)).b10 * 2 ^ 24 +
          (inject_metadata m (mkV7 t r)).b11 * 2 ^ 16 +
          (inject_metadata m (mkV7 t r)).b12 * 2 ^ 8 +
          (inject_metadata m (mkV7 t r)).b13 } := by
    unfold extract_metadata
    rw [if_neg (by rw [h7]; exact fun hc => hc rfl)]
    rw [henc]
    dsimp only
    rw [decode_encode_os]
  refine ⟨⟨(inject_metadata m (mkV7 t r)).b0 * 2 ^ 40 +
      (inject_metadata m (mkV7 t r)).b1 * 2 ^ 32 + (inject_metadata m (mkV7 t r)).b2 * 2 ^ 24 +
      (inject_metadata m (mkV7 t r)).b3 * 2 ^ 16 + (inject_metadata m (mkV7 t r)).b4 * 2 ^ 8 +
      (inject_metadata m (mkV7 t r)).b5, m.os_type,
      (m.os_version.1 &&& 0x1F, m.os_version.2 &&& 0x0F), (inject_metadata m (mkV7 t r)).b9,
      (inject_metadata m (mkV7 t r)).b10 * 2 ^ 24 + (inject_metadata m (mkV7 t r)).b11 * 2 ^ 16 +
      (inject_metadata m (mkV7 t r)).b12 * 2 ^ 8 + (inject_metadata m (mkV7 t r)).b13⟩,
    ?_, rfl, rfl⟩
  show (parse_uuid (format_uuid f none (inject_metadata m (mkV7 t r)))).map
    (fun u => (u, extract_metadata u)) = _
  rw [hparse, Option.map_some', hext]

/-- C2 witness: the theorem applied to a concrete record, format, timestamp
and random draw. -/
theorem c2_metadata_roundtrip_witness :
    ∃ em : ExtractedMetadata,
      parse_uuid_with_metadata (generate_with_metadata UuidFormat.Standard none
          ⟨OsType.MacOS, (14, 5), [104, 105], none⟩ 123456789 ⟨1, 2, 3, 4, 5, 6, 7, 8, 9, 10⟩) =
        some (inject_metadata ⟨OsType.MacOS, (14, 5), [104, 105], none⟩
          (mkV7 123456789 ⟨1, 2, 3, 4, 5, 6, 7, 8, 9, 10⟩), some em) ∧
      em.os_type = OsType.MacOS ∧
      em.os_version = (14 &&& 0x1F, 5 &&& 0x0F) :=
  c2_metadata_roundtrip ⟨OsType.MacOS, (14, 5), [104, 105], none⟩ UuidFormat.Standard
    123456789 ⟨1, 2, 3, 4, 5, 6, 7, 8, 9, 10⟩ (by simp [V7Rand.Wf])

/-- Helper: a nonempty pattern is not a prefix of the empty string, hence the
guard of the trimming loop never fires on it. -/
theorem trim_guard_nil (pat : List Char) : ¬ (pat ≠ [] ∧ pat.isPrefixOf []) := by
  rintro ⟨hne, hpre⟩
  cases pat with
  | nil => exact hne rfl
  | cons p ps => simp [List.isPrefixOf] at hpre

/-- Helper: any two sufficient fuels compute the same trimming fixpoint. -/
theorem trimStartAux_fuel (pat : List Char) :
    ∀ (f1 f2 : Nat) (s : List Char), s.length ≤ f1 → s.length ≤ f2 →
      trimStartAux pat f1 s = trimStartAux pat f2 s := by
  intro f1
  induction f1 with
  | zero =>
    intro f2 s h1 _
    have hs : s = [] := List.length_eq_zero.mp (Nat.le_zero.mp h1)
    subst hs
    cases f2 with
    | zero => rfl
    | succ n =>
      show trimStartAux pat 0 [] = trimStartAux pat (n + 1) []
      unfold trimStartAux
      rw [if_neg (trim_guard_nil pat)]
  | succ m ih =>
    intro f2 s h1 h2
    cases f2 with
    | zero =>
      have hs : s = [] := List.length_eq_zero.mp (Nat.le_zero.mp h2)
      subst hs
      show trimStartAux pat (m + 1) [] = trimStartAux pat 0 []
      unfold trimStartAux
      rw [if_neg (trim_guard_nil pat)]
    | succ n =>
      unfold trimStartAux
      by_cases hc : pat ≠ [] ∧ pat.isPrefixOf s
      · rw [if_pos hc, if_pos hc]
        have hplen : 1 ≤ pat.length := by
          cases pat with
          | nil => exact absurd rfl hc.1
          | cons p ps => simp
        have hslen : pat.length ≤ s.length :=
          (List.isPrefixOf_iff_prefix.mp hc.2).length_le
        have hd : (s.drop pat.length).length ≤ m := by
          rw [List.length_drop]
          omega
        have hd2 : (s.drop pat.length).length ≤ n := by
          rw [List.length_drop]
          omega
        exact ih n (s.drop pat.length) hd hd2
      · rw [if_neg hc, if_neg hc]

/-- Helper: stripping one leading occurrence of the pattern before running
the trimming loop is absorbed by the loop. -/
theorem trimStartList_append_self (pat s : List Char) (hne : pat ≠ []) :
    trimStartList pat (pat ++ s) = trimStartList pat s := by
  have hplen : 1 ≤ pat.length := by
    cases pat with
    | nil => exact absurd rfl hne
    | cons p ps => simp
  have hlen : (pat ++ s).length = pat.length + s.length := List.length_append _ _
  obtain ⟨n, hn⟩ : ∃ n, (pat ++ s).length = n + 1 := ⟨(pat ++ s).length - 1, by omega⟩
  have step : trimStartList pat (pat ++ s) = trimStartAux pat n s := by
    show trimStartAux pat (pat ++ s).length (pat ++ s) = _
    rw [hn]
    show (if pat ≠ [] ∧ pat.isPrefixOf (pat ++ s) then
        trimStartAux pat n ((pat ++ s).drop pat.length) else (pat ++ s)) = _
    rw [if_pos ⟨hne, List.isPrefixOf_iff_prefix.mpr (List.prefix_append pat s)⟩,
      List.drop_left]
  rw [step]
  show trimStartAux pat n s = trimStartAux pat s.length s
  exact trimStartAux_fuel pat n s.length s (by omega) (Nat.le_refl _)

/-- Concatenation of `n` copies of a pattern, used to state the repeated
scheme-prefix claim. -/
def repeatPat : Nat → List Char → List Char
  | 0, _ => []
  | n + 1, pat => pat ++ repeatPat n pat

/-- Helper: the trimming loop strips any number of leading pattern copies. -/
theorem trimStartList_repeatPat (pat s : List Char) (hne : pat ≠ []) :
    ∀ n : Nat, trimStartList pat (repeatPat n pat ++ s) = trimStartList pat s := by
  intro n
  induction n with
  | zero => rfl
  | succ k ih =>
    show trimStartList pat ((pat ++ repeatPat k pat) ++ s) = _
    rw [List.append_assoc, trimStartList_append_self pat _ hne]
    exact ih

/-- Helper: `dropWhile` eats any number of leading matching characters. -/
theorem dropWhile_replicate_append (p : Char → Bool) (c : Char) (s : List Char)
    (hc : p c = true) : ∀ k : Nat, (List.replicate k c ++ s).dropWhile p = s.dropWhile p := by
  intro k
  induction k with
  | zero => rfl
  | succ j ih =>
    rw [List.replicate_succ, List.cons_append, List.dropWhile_cons, if_pos hc]
    exact ih

/-- Helper: a successful hex-pair decode consumes exactly two characters per
byte. -/
theorem parseHexPairs_length :
    ∀ (s : List Char) (L : List Nat), parseHexPairs s = some L → 2 * L.length = s.length
  | [], L, hp => by injection hp with hp; rw [← hp]; rfl
  | [c0], L, hp => by exact absurd hp (by simp [parseHexPairs])
  | c1 :: c2 :: rest, L, hp => by
    cases h1 : hexVal c1 with
    | none => simp only [parseHexPairs, h1] at hp; exact Option.noConfusion hp
    | some hi =>
      cases h2 : hexVal c2 with
      | none => simp only [parseHexPairs, h1, h2] at hp; exact Option.noConfusion hp
      | some lo =>
        cases hr : parseHexPairs rest with
        | none => simp only [parseHexPairs, h1, h2, hr] at hp; exact Option.noConfusion hp
        | some bs =>
          simp only [parseHexPairs, h1, h2, hr] at hp
          injection hp with hp
          rw [← hp]
          have := parseHexPairs_length rest bs hr
          simp only [List.length_cons]
          omega

/-- Helper: every list accepted by `parse_str` has exactly 16 bytes. -/
theorem parse_str_length (s : List Char) (L : List Nat)
    (hp : parse_str s = some L) : L.length = 16 := by
  unfold parse_str at hp
  by_cases h32 : s.length = 32
  · rw [if_pos h32] at hp
    have := parseHexPairs_length s L hp
    omega
  · rw [if_neg h32] at hp
    cases hd : splitDashes s with
    | none => rw [hd] at hp; exact absurd hp (by simp)
    | some grouping =>
      rw [hd] at hp
      unfold splitDashes at hd
      by_cases hcond : s.length = 36 ∧ s[8]? = some '-' ∧ s[13]? = some '-' ∧
          s[18]? = some '-' ∧ s[23]? = some '-'
      · rw [if_pos hcond] at hd
        obtain ⟨hlen36, -, -, -, -⟩ := hcond
        injection hd with hd
        have hglen : grouping.length = 32 := by
          rw [← hd]
          simp only [List.length_append, List.length_take, List.length_drop, hlen36]
          omega
        have := parseHexPairs_length grouping L hp
        omega
      · rw [if_neg hcond] at hd
        exact absurd hd (by simp)

/-- Helper: peel one element off a list of known positive length. -/
theorem cons_of_len (L : List Nat) (n : Nat) (h : L.length = n + 1) :
    ∃ a T, L = a :: T ∧ T.length = n := by
  cases L with
  | nil => simp at h
  | cons a T => exact ⟨a, T, rfl, by simpa using h⟩

/-- Helper: packing a 16-byte list always succeeds. -/
theorem ofList?_isSome (L : List Nat) (h : L.length = 16) :
    ∃ u, UuidBytes.ofList? L = some u := by
  obtain ⟨a0, T1, rfl, h1⟩ := cons_of_len L 15 h
  obtain ⟨a1, T2, rfl, h2⟩ := cons_of_len T1 14 h1
  obtain ⟨a2, T3, rfl, h3⟩ := cons_of_len T2 13 h2
  obtain ⟨a3, T4, rfl, h4⟩ := cons_of_len T3 12 h3
  obtain ⟨a4, T5, rfl, h5⟩ := cons_of_len T4 11 h4
  obtain ⟨a5, T6, rfl, h6⟩ := cons_of_len T5 10 h5
  obtain ⟨a6, T7, rfl, h7⟩ := cons_of_len T6 9 h6
  obtain ⟨a7, T8, rfl, h8⟩ := cons_of_len T7 8 h7
  obtain ⟨a8, T9, rfl, h9⟩ := cons_of_len T8 7 h8
  obtain ⟨a9, T10, rfl, h10⟩ := cons_of_len T9 6 h9
  obtain ⟨a10, T11, rfl, h11⟩ := cons_of_len T10 5 h10
  obtain ⟨a11, T12, rfl, h12⟩ := cons_of_len T11 4 h11
  obtain ⟨a12, T13, rfl, h13⟩ := cons_of_len T12 3 h12
  obtain ⟨a13, T14, rfl, h14⟩ := cons_of_len T13 2 h13
  obtain ⟨a14, T15, rfl, h15⟩ := cons_of_len T14 1 h14
  obtain ⟨a15, T16, rfl, h16⟩ := cons_of_len T15 0 h15
  rw [List.length_eq_zero.mp h16]
  exact ⟨_, rfl⟩

/-- Helper: the URN scheme token is not a prefix of any text whose second
character is not the letter r. -/
theorem urn_not_prefix_uuid (T : List Char) :
    ¬ "urn:uuid:".toList.isPrefixOf ('u' :: 'u' :: T) := by
  rw [urn_toList]
  simp [List.isPrefixOf]

/-- Helper: normalization of every decoration of a valid bare text yields the
bare text: the three documented decorations, scheme prefixes applied outside
braces, repeated bare scheme prefixes, repeated opening braces, and
unbalanced braces on either side. -/
theorem clean_decorated (X : List Char) (v : List Nat) (hp : parse_str X = some v) :
    clean_uuid_input X = X ∧
    clean_uuid_input ("urn:uuid:".toList ++ X) = X ∧
    clean_uuid_input ("uuid:".toList ++ X) = X ∧
    clean_uuid_input ('{' :: (X ++ ['}'])) = X ∧
    clean_uuid_input ("urn:uuid:".toList ++ ('{' :: (X ++ ['}']))) = X ∧
    clean_uuid_input ("uuid:".toList ++ ('{' :: (X ++ ['}']))) = X ∧
    (∀ n, clean_uuid_input (repeatPat (n + 1) "uuid:".toList ++ X) = X) ∧
    (∀ k, clean_uuid_input (List.replicate (k + 1) '{' ++ X) = X) ∧
    clean_uuid_input ('{' :: X) = X ∧
    clean_uuid_input (X ++ ['}']) = X := by
  obtain ⟨⟨c₀, T, hX, hu0, hbr0⟩, f1, f2, f3, f4⟩ := valid_shape X v hp
  subst hX
  have hurn_ne : "urn:uuid:".toList ≠ [] := by rw [urn_toList]; simp
  have huuid_ne : "uuid:".toList ≠ [] := by rw [uuid_toList]; simp
  have hbrace_urn : ∀ R : List Char, ¬ "urn:uuid:".toList.isPrefixOf ('{' :: R) := by
    intro R
    rw [urn_toList]
    exact not_isPrefixOf_of_head_ne _ _ _ _ (by decide)
  have hbrace_uuid : ∀ R : List Char, ¬ "uuid:".toList.isPrefixOf ('{' :: R) := by
    intro R
    rw [uuid_toList]
    exact not_isPrefixOf_of_head_ne _ _ _ _ (by decide)
  have hhead_urn : ∀ R : List Char, ¬ "urn:uuid:".toList.isPrefixOf (c₀ :: R) := by
    intro R
    rw [urn_toList]
    exact not_isPrefixOf_of_head_ne _ _ _ _ hu0
  have hhead_uuid : ∀ R : List Char, ¬ "uuid:".toList.isPrefixOf (c₀ :: R) := by
    intro R
    rw [uuid_toList]
    exact not_isPrefixOf_of_head_ne _ _ _ _ hu0
  have g3 : ('{' :: ((c₀ :: T) ++ ['}'])).dropWhile (fun c => c = '{') = (c₀ :: T) ++ ['}'] := by
    rw [List.dropWhile_cons, if_pos (by decide)]
    show List.dropWhile _ (c₀ :: (T ++ ['}'])) = _
    rw [List.dropWhile_cons, if_neg (by simpa using hbr0)]
    rfl
  have g3X : ((c₀ :: T) ++ ['}']).dropWhile (fun c => c = '{') = (c₀ :: T) ++ ['}'] := by
    show List.dropWhile _ (c₀ :: (T ++ ['}'])) = _
    rw [List.dropWhile_cons, if_neg (by simpa using hbr0)]
    rfl
  have g4 : (((c₀ :: T) ++ ['}']).reverse.dropWhile (fun c => c = '}')).reverse = c₀ :: T := by
    rw [List.reverse_append]
    show (List.dropWhile _ ('}' :: (c₀ :: T).reverse)).reverse = _
    rw [List.dropWhile_cons, if_pos (by decide), f4, List.reverse_reverse]
  have cX : clean_uuid_input (c₀ :: T) = c₀ :: T := clean_of_valid _ _ hp
  refine ⟨cX, ?_, ?_, ?_, ?_, ?_, ?_, ?_, ?_, ?_⟩
  · unfold clean_uuid_input
    dsimp only
    rw [trimStartList_append_self _ _ hurn_ne, f1, f2, f3, f4, List.reverse_reverse]
  · unfold clean_uuid_input
    dsimp only
    rw [trimStartList_no_match "urn:uuid:".toList ("uuid:".toList ++ (c₀ :: T))
        (urn_not_prefix_uuid _),
      trimStartList_append_self _ _ huuid_ne, f2, f3, f4, List.reverse_reverse]
  · unfold clean_uuid_input
    dsimp only
    rw [trimStartList_no_match _ _ (hbrace_urn _), trimStartList_no_match _ _ (hbrace_uuid _), g3]
    exact g4
  · unfold clean_uuid_input
    dsimp only
    rw [trimStartList_append_self "urn:uuid:".toList ('{' :: ((c₀ :: T) ++ ['}'])) hurn_ne,
      trimStartList_no_match "urn:uuid:".toList ('{' :: ((c₀ :: T) ++ ['}'])) (hbrace_urn _),
      trimStartList_no_match "uuid:".toList ('{' :: ((c₀ :: T) ++ ['}'])) (hbrace_uuid _), g3]
    exact g4
  · unfold clean_uuid_input
    dsimp only
    rw [trimStartList_no_match "urn:uuid:".toList ("uuid:".toList ++ ('{' :: ((c₀ :: T) ++ ['}'])))
        (urn_not_prefix_uuid _),
      trimStartList_append_self _ _ huuid_ne,
      trimStartList_no_match _ _ (hbrace_uuid _), g3]
    exact g4
  · intro n
    unfold clean_uuid_input
    dsimp only
    rw [trimStartList_no_match "urn:uuid:".toList (repeatPat (n + 1) "uuid:".toList ++ (c₀ :: T))
        (urn_not_prefix_uuid _),
      trimStartList_repeatPat _ _ huuid_ne, f2, f3, f4, List.reverse_reverse]
  · intro k
    unfold clean_uuid_input
    dsimp only
    rw [trimStartList_no_match "urn:uuid:".toList (List.replicate (k + 1) '{' ++ (c₀ :: T))
        (hbrace_urn _),
      trimStartList_no_match "uuid:".toList (List.replicate (k + 1) '{' ++ (c₀ :: T))
        (hbrace_uuid _),
      dropWhile_replicate_append _ '{' (c₀ :: T) (by decide) (k + 1), f3, f4,
      List.reverse_reverse]
  · unfold clean_uuid_input
    dsimp only
    rw [trimStartList_no_match _ _ (hbrace_urn _), trimStartList_no_match _ _ (hbrace_uuid _),
      List.dropWhile_cons, if_pos (by decide), f3, f4, List.reverse_reverse]
  · unfold clean_uuid_input
    dsimp only
    rw [trimStartList_no_match "urn:uuid:".toList ((c₀ :: T) ++ ['}']) (hhead_urn _),
      trimStartList_no_match "uuid:".toList ((c₀ :: T) ++ ['}']) (hhead_uuid _),
      g3X]
    exact g4

/-- Helper: two texts with the same normalization parse identically. -/
theorem parse_uuid_congr (s' X : List Char) (h1 : clean_uuid_input s' = X)
    (h2 : clean_uuid_input X = X) : parse_uuid s' = parse_uuid X := by
  unfold parse_uuid
  rw [h1, h2]

/-- C9 counterexample: braces wrapped around a scheme-prefixed form do not
parse.  Normalization strips scheme tokens before braces, so the inner
`uuid:` token survives and the residual text is rejected, while the bare text
parses fine — refuting the claim that every combination of scheme prefix and
wrapping braces is accepted. -/
theorem c9_braced_scheme_counterexample :
    parse_uuid "{uuid:550e8400-e29b-41d4-a716-446655440000}".toList = none ∧
    (parse_uuid "550e8400-e29b-41d4-a716-446655440000".toList).isSome := by
  decide

/-- C9 (amended): normalization equivalence holds for the documented
decorations — the URN scheme prefix, the bare scheme prefix, wrapping braces,
and combinations in which a scheme prefix is applied outside the braces;
each such decorated text parses to the same value as the bare text.
(Braces wrapped around a scheme-prefixed form fail instead, per the
counterexample.) -/
theorem c9_normalization (X : List Char) (v : List Nat) (hp : parse_str X = some v) :
    (parse_uuid X).isSome ∧
    parse_uuid ("urn:uuid:".toList ++ X) = parse_uuid X ∧
    parse_uuid ("uuid:".toList ++ X) = parse_uuid X ∧
    parse_uuid ('{' :: (X ++ ['}'])) = parse_uuid X ∧
    parse_uuid ("urn:uuid:".toList ++ ('{' :: (X ++ ['}']))) = parse_uuid X ∧
    parse_uuid ("uuid:".toList ++ ('{' :: (X ++ ['}']))) = parse_uuid X := by
  obtain ⟨cX, c1, c2, c3, c4, c5, -, -, -, -⟩ := clean_decorated X v hp
  obtain ⟨u, hu⟩ := ofList?_isSome v (parse_str_length X v hp)
  refine ⟨?_, parse_uuid_congr _ _ c1 cX, parse_uuid_congr _ _ c2 cX,
    parse_uuid_congr _ _ c3 cX, parse_uuid_congr _ _ c4 cX, parse_uuid_congr _ _ c5 cX⟩
  unfold parse_uuid
  rw [cX, hp]
  simp [hu]

/-- C9 witness: the amended theorem applied to a concrete bare hyphenated
text. -/
theorem c9_normalization_witness :
    (parse_uuid "550e8400-e29b-41d4-a716-446655440000".toList).isSome ∧
    parse_uuid ("urn:uuid:".toList ++ "550e8400-e29b-41d4-a716-446655440000".toList) =
      parse_uuid "550e8400-e29b-41d4-a716-446655440000".toList ∧
    parse_uuid ("uuid:".toList ++ "550e8400-e29b-41d4-a716-446655440000".toList) =
      parse_uuid "550e8400-e29b-41d4-a716-446655440000".toList ∧
    parse_uuid ('{' :: ("550e8400-e29b-41d4-a716-446655440000".toList ++ ['}'])) =
      parse_uuid "550e8400-e29b-41d4-a716-446655440000".toList ∧
    parse_uuid ("urn:uuid:".toList ++
        ('{' :: ("550e8400-e29b-41d4-a716-446655440000".toList ++ ['}']))) =
      parse_uuid "550e8400-e29b-41d4-a716-446655440000".toList ∧
    parse_uuid ("uuid:".toList ++
        ('{' :: ("550e8400-e29b-41d4-a716-446655440000".toList ++ ['}']))) =
      parse_uuid "550e8400-e29b-41d4-a716-446655440000".toList :=
  c9_normalization "550e8400-e29b-41d4-a716-446655440000".toList
    [85, 14, 132, 0, 226, 155, 65, 212, 167, 22, 68, 102, 85, 68, 0, 0] (by decide)

/-- C10: implicit parser leniency.  Because normalization strips with
repeated prefix/suffix trimming, undocumented decorations are also accepted:
any number of repetitions of the bare scheme prefix, any number of extra
leading opening braces, and unbalanced braces on either side all parse to the
same value as the bare text. -/
theorem c10_lenient_decorations (X : List Char) (v : List Nat)
    (hp : parse_str X = some v) (n k : Nat) :
    (parse_uuid X).isSome ∧
    parse_uuid (repeatPat (n + 1) "uuid:".toList ++ X) = parse_uuid X ∧
    parse_uuid (List.replicate (k + 1) '{' ++ X) = parse_uuid X ∧
    parse_uuid ('{' :: X) = parse_uuid X ∧
    parse_uuid (X ++ ['}']) = parse_uuid X := by
  obtain ⟨cX, -, -, -, -, -, r1, r2, r3, r4⟩ := clean_decorated X v hp
  obtain ⟨u, hu⟩ := ofList?_isSome v (parse_str_length X v hp)
  refine ⟨?_, parse_uuid_congr _ _ (r1 n) cX, parse_uuid_congr _ _ (r2 k) cX,
    parse_uuid_congr _ _ r3 cX, parse_uuid_congr _ _ r4 cX⟩
  unfold parse_uuid
  rw [cX, hp]
  simp [hu]

/-- C10 witness: the theorem applied to a concrete bare text with two copies
of the scheme prefix and two extra opening braces. -/
theorem c10_lenient_decorations_witness :
    (parse_uuid "550e8400e29b41d4a716446655440000".toList).isSome ∧
    parse_uuid (repeatPat (1 + 1) "uuid:".toList ++ "550e8400e29b41d4a716446655440000".toList) =
      parse_uuid "550e8400e29b41d4a716446655440000".toList ∧
    parse_uuid (List.replicate (1 + 1) '{' ++ "550e8400e29b41d4a716446655440000".toList) =
      parse_uuid "550e8400e29b41d4a716446655440000".toList ∧
    parse_uuid ('{' :: "550e8400e29b41d4a716446655440000".toList) =
      parse_uuid "550e8400e29b41d4a716446655440000".toList ∧
    parse_uuid ("550e8400e29b41d4a716446655440000".toList ++ ['}']) =
      parse_uuid "550e8400e29b41d4a716446655440000".toList :=
  c10_lenient_decorations "550e8400e29b41d4a716446655440000".toList
    [85, 14, 132, 0, 226, 155, 65, 212, 167, 22, 68, 102, 85, 68, 0, 0] (by decide) 1 1

/-- Strict lexicographic order on character lists, the order `sort` uses on
the textual identifiers (shorter prefix first, otherwise first differing
character decides). -/
def lexLt : List Char → List Char → Bool
  | [], [] => false
  | [], _ :: _ => true
  | _ :: _, [] => false
  | a :: x, b :: y => if a < b then true else if a = b then lexLt x y else false

/-- Strict lexicographic order on byte lists. -/
def lexLtN : List Nat → List Nat → Bool
  | [], [] => false
  | [], _ :: _ => true
  | _ :: _, [] => false
  | a :: x, b :: y => if a < b then true else if a = b then lexLtN x y else false

/-- Helper: a common prefix does not affect the comparison. -/
theorem lexLt_append_left : ∀ (p x y : List Char), lexLt (p ++ x) (p ++ y) = lexLt x y := by
  intro p
  induction p with
  | nil => intro x y; rfl
  | cons a p ih =>
    intro x y
    show lexLt (a :: (p ++ x)) (a :: (p ++ y)) = _
    simp only [lexLt]
    rw [if_pos trivial, if_neg (lt_irrefl a)]
    exact ih x y

/-- Helper: equal heads reduce the comparison to the tails. -/
theorem lexLt_cons_same (c : Char) (x y : List Char) :
    lexLt (c :: x) (c :: y) = lexLt x y := by
  simp only [lexLt]
  rw [if_pos trivial, if_neg (lt_irrefl c)]

/-- Helper: a strict comparison between equal-length lists survives appending
arbitrary suffixes. -/
theorem lexLt_append_of_lexLt : ∀ (x y u v : List Char), x.length = y.length →
    lexLt x y = true → lexLt (x ++ u) (y ++ v) = true := by
  intro x
  induction x with
  | nil =>
    intro y u v hlen h
    cases y with
    | nil => exact absurd h (by simp [lexLt])
    | cons b y => simp at hlen
  | cons a x ih =>
    intro y u v hlen h
    cases y with
    | nil => simp at hlen
    | cons b y =>
      by_cases hab : a < b
      · show lexLt (a :: (x ++ u)) (b :: (y ++ v)) = true
        simp only [lexLt]
        rw [if_pos hab]
      · by_cases heq : a = b
        · subst heq
          rw [lexLt_cons_same] at h
          show lexLt (a :: (x ++ u)) (a :: (y ++ v)) = true
          rw [lexLt_cons_same]
          exact ih y u v (by simpa using hlen) h
        · simp only [lexLt] at h
          rw [if_neg hab, if_neg heq] at h
          exact absurd h (by simp)

/-- Helper: a strict comparison between equal-length lists either already
shows in the first `k` characters or the first `k` characters agree and the
comparison shows in the remainder. -/
theorem lexLt_take_drop : ∀ (k : Nat) (x y : List Char), x.length = y.length →
    lexLt x y = true →
    lexLt (x.take k) (y.take k) = true ∨
      (x.take k = y.take k ∧ lexLt (x.drop k) (y.drop k) = true) := by
  intro k
  induction k with
  | zero => intro x y _ h; exact Or.inr ⟨rfl, h⟩
  | succ k ih =>
    intro x y hlen h
    cases x with
    | nil =>
      cases y with
      | nil => exact absurd h (by simp [lexLt])
      | cons b y => simp at hlen
    | cons a x =>
      cases y with
      | nil => simp at hlen
      | cons b y =>
        by_cases hab : a < b
        · left
          show lexLt (a :: x.take k) (b :: y.take k) = true
          simp only [lexLt]
          rw [if_pos hab]
        · by_cases heq : a = b
          · subst heq
            rw [lexLt_cons_same] at h
            rcases ih x y (by simpa using hlen) h with hL | ⟨hE, hD⟩
            · left
              show lexLt (a :: x.take k) (a :: y.take k) = true
              rw [lexLt_cons_same]
              exact hL
            · right
              exact ⟨by show a :: x.take k = a :: y.take k; rw [hE], hD⟩
          · simp only [lexLt] at h
            rw [if_neg hab, if_neg heq] at h
            exact absurd h (by simp)

/-- Big-endian byte decomposition of an unsigned integer into `n` bytes, as
the spec lays the 48-bit timestamp into bytes 0-5. -/
def beBytes : Nat → Nat → List Nat
  | 0, _ => []
  | n + 1, t => t / 256 ^ n % 256 :: beBytes n t

/-- Helper: the six timestamp bytes, spelled out. -/
theorem beBytes_six (t : Nat) :
    beBytes 6 t = [t / 256 ^ 5 % 256, t / 256 ^ 4 % 256, t / 256 ^ 3 % 256,
      t / 256 ^ 2 % 256, t / 256 ^ 1 % 256, t / 256 ^ 0 % 256] := rfl

/-- Helper: the byte decomposition only depends on the value modulo the
covered range. -/
theorem beBytes_mod : ∀ (n t : Nat), beBytes n (t % 256 ^ n) = beBytes n t := by
  intro n
  induction n with
  | zero => intro t; rfl
  | succ n ih =>
    intro t
    show t % 256 ^ (n + 1) / 256 ^ n % 256 :: beBytes n (t % 256 ^ (n + 1)) =
      t / 256 ^ n % 256 :: beBytes n t
    have hhead : t % 256 ^ (n + 1) / 256 ^ n % 256 = t / 256 ^ n % 256 := by
      rw [pow_succ, Nat.mod_mul_right_div_self, Nat.mod_mod]
    have htail : beBytes n (t % 256 ^ (n + 1)) = beBytes n t := by
      have h1 : t % 256 ^ (n + 1) % 256 ^ n = t % 256 ^ n :=
        Nat.mod_mod_of_dvd t (by rw [pow_succ]; exact Dvd.intro 256 rfl)
      calc beBytes n (t % 256 ^ (n + 1))
          = beBytes n (t % 256 ^ (n + 1) % 256 ^ n) := (ih _).symm
        _ = beBytes n (t % 256 ^ n) := by rw [h1]
        _ = beBytes n t := ih t
    rw [hhead, htail]

/-- Helper: every byte of the decomposition is 8-bit. -/
theorem beBytes_lt : ∀ (n t : Nat), ∀ b ∈ beBytes n t, b < 256 := by
  intro n
  induction n with
  | zero => intro t b hb; exact absurd hb (by simp [beBytes])
  | succ n ih =>
    intro t b hb
    rcases List.mem_cons.mp hb with rfl | hb2
    · exact Nat.mod_lt _ (by norm_num)
    · exact ih t b hb2

/-- Helper: big-endian byte strings compare like the numbers they encode. -/
theorem beBytes_mono : ∀ (n t t' : Nat), t < t' → t' < 256 ^ n →
    lexLtN (beBytes n t) (beBytes n t') = true := by
  intro n
  induction n with
  | zero =>
    intro t t' htt ht'
    simp at ht'
    omega
  | succ n ih =>
    intro t t' htt ht'
    have hdle : t / 256 ^ n ≤ t' / 256 ^ n := Nat.div_le_div_right (Nat.le_of_lt htt)
    have hd' : t' / 256 ^ n < 256 := by
      rw [Nat.div_lt_iff_lt_mul (Nat.pos_pow_of_pos n (by norm_num))]
      calc t' < 256 ^ (n + 1) := ht'
        _ = 256 * 256 ^ n := by rw [pow_succ]; ring
    have hdt : t / 256 ^ n < 256 := Nat.lt_of_le_of_lt hdle hd'
    show lexLtN (t / 256 ^ n % 256 :: beBytes n t) (t' / 256 ^ n % 256 :: beBytes n t') = true
    rw [Nat.mod_eq_of_lt hdt, Nat.mod_eq_of_lt hd']
    by_cases hlt : t / 256 ^ n < t' / 256 ^ n
    · simp only [lexLtN]
      rw [if_pos hlt]
    · have heq : t / 256 ^ n = t' / 256 ^ n := Nat.le_antisymm hdle (Nat.le_of_not_lt hlt)
      simp only [lexLtN]
      rw [heq, if_neg (lt_irrefl _), if_pos rfl]
      rw [← beBytes_mod n t, ← beBytes_mod n t']
      have h1 := Nat.div_add_mod t (256 ^ n)
      have h2 := Nat.div_add_mod t' (256 ^ n)
      have hm' : t' % 256 ^ n < 256 ^ n :=
        Nat.mod_lt _ (Nat.pos_pow_of_pos n (by norm_num))
      refine ih (t % 256 ^ n) (t' % 256 ^ n) ?_ hm'
      rw [heq] at h1
      omega

/-- Hex rendering of a byte list through an arbitrary digit-to-character map,
used to treat the lowercase and uppercase formats uniformly. -/
def renderHex (χ : Nat → Char) : List Nat → List Char
  | [] => []
  | b :: bs => χ (b / 16) :: χ (b % 16) :: renderHex χ bs

/-- The uppercase hex digit map. -/
def hexDigitU (v : Nat) : Char :=
  charUpper (hexDigit v)

/-- Helper: the formatter is `renderHex` over the lowercase digit map. -/
theorem bytesToHex_eq_renderHex : ∀ bs : List Nat, bytesToHex bs = renderHex hexDigit bs := by
  intro bs
  induction bs with
  | nil => rfl
  | cons b bs ih =>
    show byteToHex b ++ bytesToHex bs = _
    rw [ih]
    rfl

/-- Helper: uppercasing the rendering is rendering through the uppercase
digit map. -/
theorem map_charUpper_renderHex :
    ∀ bs : List Nat, (renderHex hexDigit bs).map charUpper = renderHex hexDigitU bs := by
  intro bs
  induction bs with
  | nil => rfl
  | cons b bs ih =>
    show charUpper (hexDigit (b / 16)) :: charUpper (hexDigit (b % 16)) ::
      (renderHex hexDigit bs).map charUpper = _
    rw [ih]
    rfl

/-- Helper: the rendering has two characters per byte. -/
theorem length_renderHex (χ : Nat → Char) :
    ∀ bs : List Nat, (renderHex χ bs).length = 2 * bs.length := by
  intro bs
  induction bs with
  | nil => rfl
  | cons b bs ih =>
    show (renderHex χ bs).length + 1 + 1 = _
    rw [ih]
    simp
    omega

/-- Helper: the rendering is a list homomorphism. -/
theorem renderHex_append (χ : Nat → Char) :
    ∀ bs cs : List Nat, renderHex χ (bs ++ cs) = renderHex χ bs ++ renderHex χ cs := by
  intro bs cs
  induction bs with
  | nil => rfl
  | cons b bs ih =>
    show χ (b / 16) :: χ (b % 16) :: renderHex χ (bs ++ cs) = _
    rw [ih]
    rfl

/-- Helper: the lowercase digit map is strictly monotone on nibbles. -/
theorem hexDigit_mono : ∀ x y : Fin 16, x.val < y.val → hexDigit x.val < hexDigit y.val := by
  decide

/-- Helper: the uppercase digit map is strictly monotone on nibbles. -/
theorem hexDigitU_mono : ∀ x y : Fin 16, x.val < y.val → hexDigitU x.val < hexDigitU y.val := by
  decide

/-- Helper: hex rendering preserves strict lexicographic comparison of 8-bit
byte lists, for any strictly monotone digit map. -/
theorem lexLt_renderHex (χ : Nat → Char)
    (Hχ : ∀ x y : Fin 16, x.val < y.val → χ x.val < χ y.val) :
    ∀ bs cs : List Nat, (∀ b ∈ bs, b < 256) → (∀ b ∈ cs, b < 256) →
      lexLtN bs cs = true → lexLt (renderHex χ bs) (renderHex χ cs) = true := by
  intro bs
  induction bs with
  | nil =>
    intro cs _ _ h
    cases cs with
    | nil => exact absurd h (by simp [lexLtN])
    | cons c cs => rfl
  | cons b bs ih =>
    intro cs hb hc h
    cases cs with
    | nil => exact absurd h (by simp [lexLtN])
    | cons c cs =>
      have hblt : b < 256 := hb b (List.mem_cons_self _ _)
      have hclt : c < 256 := hc c (List.mem_cons_self _ _)
      have hbd : b / 16 < 16 := by omega
      have hbm : b % 16 < 16 := by omega
      have hcd : c / 16 < 16 := by omega
      have hcm : c % 16 < 16 := by omega
      show lexLt (χ (b / 16) :: χ (b % 16) :: renderHex χ bs)
        (χ (c / 16) :: χ (c % 16) :: renderHex χ cs) = true
      by_cases hbc : b < c
      · have hdle : b / 16 ≤ c / 16 := Nat.div_le_div_right (Nat.le_of_lt hbc)
        by_cases hdlt : b / 16 < c / 16
        · simp only [lexLt]
          rw [if_pos (Hχ ⟨b / 16, hbd⟩ ⟨c / 16, hcd⟩ hdlt)]
        · have hdeq : b / 16 = c / 16 := Nat.le_antisymm hdle (Nat.le_of_not_lt hdlt)
          rw [hdeq, lexLt_cons_same]
          have hmlt : b % 16 < c % 16 := by omega
          simp only [lexLt]
          rw [if_pos (Hχ ⟨b % 16, hbm⟩ ⟨c % 16, hcm⟩ hmlt)]
      · by_cases heq : b = c
        · subst heq
          simp only [lexLtN] at h
          rw [if_pos trivial, if_neg (lt_irrefl b)] at h
          rw [lexLt_cons_same, lexLt_cons_same]
          exact ih cs (fun x hx => hb x (List.mem_cons_of_mem _ hx))
            (fun x hx => hc x (List.mem_cons_of_mem _ hx)) h
        · simp only [lexLtN] at h
          rw [if_neg hbc, if_neg heq] at h
          exact absurd h (by simp)

/-- Helper: the byte decomposition has `n` bytes. -/
theorem length_beBytes : ∀ (n t : Nat), (beBytes n t).length = n := by
  intro n
  induction n with
  | zero => intro t; rfl
  | succ n ih =>
    intro t
    show (beBytes n t).length + 1 = n + 1
    rw [ih]

/-- Helper: hyphenating a 12-character head followed by a tail splits into
head groups and tail groups. -/
theorem hyphenate_decomp (S RS : List Char) (hS : S.length = 12) :
    hyphenate (S ++ RS) = S.take 8 ++ '-' :: (S.drop 8 ++
      ('-' :: (RS.take 4 ++ '-' :: ((RS.drop 4).take 4 ++ '-' :: RS.drop 8)))) := by
  have e1 : (S ++ RS).take 8 = S.take 8 := List.take_append_of_le_length (by omega)
  have e2 : (S ++ RS).drop 8 = S.drop 8 ++ RS := List.drop_append_of_le_length (by omega)
  have e3 : ((S ++ RS).drop 8).take 4 = S.drop 8 := by
    rw [e2, List.take_append_of_le_length (by rw [List.length_drop]; omega),
      List.take_of_length_le (by rw [List.length_drop]; omega)]
  have e4 : (S ++ RS).drop 12 = RS := List.drop_left' hS
  have e5 : (S ++ RS).drop 16 = RS.drop 4 := by
    rw [show (16 : Nat) = 12 + 4 from rfl, ← List.drop_drop, e4]
  have e6 : (S ++ RS).drop 20 = RS.drop 8 := by
    rw [show (20 : Nat) = 12 + 8 from rfl, ← List.drop_drop, e4]
  unfold hyphenate
  rw [e1, e3, e4, e5, e6]

/-- Helper: hyphenating preserves the comparison when the 12-character
timestamp heads compare strictly. -/
theorem lexLt_hyphenate (T TQ R RQ : List Char) (hT : T.length = 12) (hTQ : TQ.length = 12)
    (h : lexLt T TQ = true) :
    lexLt (hyphenate (T ++ R)) (hyphenate (TQ ++ RQ)) = true := by
  rw [hyphenate_decomp T R hT, hyphenate_decomp TQ RQ hTQ]
  rcases lexLt_take_drop 8 T TQ (by rw [hT, hTQ]) h with hL | ⟨hE, hD⟩
  · exact lexLt_append_of_lexLt _ _ _ _
      (by rw [List.length_take, List.length_take, hT, hTQ]) hL
  · rw [hE, lexLt_append_left, lexLt_cons_same]
    exact lexLt_append_of_lexLt _ _ _ _
      (by rw [List.length_drop, List.length_drop, hT, hTQ]) hD

/-- Helper: per-format strict comparison of two formatted values whose byte
lists share the big-endian timestamp layout, with strictly increasing
timestamps. -/
theorem lexLt_format (f : UuidFormat) (pfx : Option (List Char)) (u uq : UuidBytes)
    (t tq : Nat) (R RQ : List Nat)
    (hu : u.toList = beBytes 6 t ++ R) (huq : uq.toList = beBytes 6 tq ++ RQ)
    (htt : t < tq) (htq : tq < 2 ^ 48) :
    lexLt (format_uuid f pfx u) (format_uuid f pfx uq) = true := by
  have ht6 : tq < 256 ^ 6 := by
    have : (256 : Nat) ^ 6 = 2 ^ 48 := by norm_num
    rw [this]
    exact htq
  have hbytes : bytesToHex u.toList =
      renderHex hexDigit (beBytes 6 t) ++ renderHex hexDigit R := by
    rw [hu, bytesToHex_eq_renderHex, renderHex_append]
  have hbytesq : bytesToHex uq.toList =
      renderHex hexDigit (beBytes 6 tq) ++ renderHex hexDigit RQ := by
    rw [huq, bytesToHex_eq_renderHex, renderHex_append]
  have hT12 : ∀ s : Nat, (renderHex hexDigit (beBytes 6 s)).length = 12 := by
    intro s
    rw [length_renderHex, length_beBytes]
  have hT12U : ∀ s : Nat, (renderHex hexDigitU (beBytes 6 s)).length = 12 := by
    intro s
    rw [length_renderHex, length_beBytes]
  have hLex : lexLt (renderHex hexDigit (beBytes 6 t))
      (renderHex hexDigit (beBytes 6 tq)) = true :=
    lexLt_renderHex hexDigit hexDigit_mono _ _ (beBytes_lt 6 t) (beBytes_lt 6 tq)
      (beBytes_mono 6 t tq htt ht6)
  have hLexU : lexLt (renderHex hexDigitU (beBytes 6 t))
      (renderHex hexDigitU (beBytes 6 tq)) = true :=
    lexLt_renderHex hexDigitU hexDigitU_mono _ _ (beBytes_lt 6 t) (beBytes_lt 6 tq)
      (beBytes_mono 6 t tq htt ht6)
  have hsimple : lexLt (bytesToHex u.toList) (bytesToHex uq.toList) = true := by
    rw [hbytes, hbytesq]
    exact lexLt_append_of_lexLt _ _ _ _ (by rw [hT12, hT12]) hLex
  have hsimpleU : lexLt ((bytesToHex u.toList).map charUpper)
      ((bytesToHex uq.toList).map charUpper) = true := by
    rw [hbytes, hbytesq]
    simp only [List.map_append, map_charUpper_renderHex]
    exact lexLt_append_of_lexLt _ _ _ _ (by rw [hT12U, hT12U]) hLexU
  have hhyph : lexLt (hyphenate (bytesToHex u.toList))
      (hyphenate (bytesToHex uq.toList)) = true := by
    rw [hbytes, hbytesq]
    exact lexLt_hyphenate _ _ _ _ (hT12 t) (hT12 tq) hLex
  have hhyphU : lexLt ((hyphenate (bytesToHex u.toList)).map charUpper)
      ((hyphenate (bytesToHex uq.toList)).map charUpper) = true := by
    rw [map_charUpper_hyphenate, map_charUpper_hyphenate, hbytes, hbytesq]
    simp only [List.map_append, map_charUpper_renderHex]
    exact lexLt_hyphenate _ _ _ _ (hT12U t) (hT12U tq) hLexU
  cases f with
  | Standard =>
    cases pfx with
    | none => exact hhyph
    | some p =>
      show lexLt (p ++ hyphenate (bytesToHex u.toList))
        (p ++ hyphenate (bytesToHex uq.toList)) = true
      rw [lexLt_append_left]
      exact hhyph
  | Simple =>
    cases pfx with
    | none => exact hsimple
    | some p =>
      show lexLt (p ++ bytesToHex u.toList) (p ++ bytesToHex uq.toList) = true
      rw [lexLt_append_left]
      exact hsimple
  | StandardUppercase =>
    cases pfx with
    | none => exact hhyphU
    | some p =>
      show lexLt (p ++ (hyphenate (bytesToHex u.toList)).map charUpper)
        (p ++ (hyphenate (bytesToHex uq.toList)).map charUpper) = true
      rw [lexLt_append_left]
      exact hhyphU
  | SimpleUppercase =>
    cases pfx with
    | none => exact hsimpleU
    | some p =>
      show lexLt (p ++ (bytesToHex u.toList).map charUpper)
        (p ++ (bytesToHex uq.toList).map charUpper) = true
      rw [lexLt_append_left]
      exact hsimpleU

/-- Helper: the six timestamp bytes, with the trailing byte reduced. -/
theorem beBytes_six' (t : Nat) :
    beBytes 6 t = [t / 256 ^ 5 % 256, t / 256 ^ 4 % 256, t / 256 ^ 3 % 256,
      t / 256 ^ 2 % 256, t / 256 ^ 1 % 256, t % 256] := by
  rw [beBytes_six]
  norm_num

/-- Helper: a fresh version-7 value is its big-endian timestamp bytes
followed by its ten remaining bytes. -/
theorem toList_mkV7 (t : Nat) (r : V7Rand) :
    (mkV7 t r).toList = beBytes 6 t ++
      [(mkV7 t r).b6, (mkV7 t r).b7, (mkV7 t r).b8, (mkV7 t r).b9, (mkV7 t r).b10,
       (mkV7 t r).b11, (mkV7 t r).b12, (mkV7 t r).b13, (mkV7 t r).b14, (mkV7 t r).b15] := by
  rw [beBytes_six']
  rfl

/-- Helper: a metadata-bearing value keeps the big-endian timestamp bytes of
its version-7 base. -/
theorem toList_inject_mkV7 (m : ClientMetadata) (t : Nat) (r : V7Rand) :
    (inject_metadata m (mkV7 t r)).toList = beBytes 6 t ++
      [(inject_metadata m (mkV7 t r)).b6, (inject_metadata m (mkV7 t r)).b7,
       (inject_metadata m (mkV7 t r)).b8, (inject_metadata m (mkV7 t r)).b9,
       (inject_metadata m (mkV7 t r)).b10, (inject_metadata m (mkV7 t r)).b11,
       (inject_metadata m (mkV7 t r)).b12, (inject_metadata m (mkV7 t r)).b13,
       (inject_metadata m (mkV7 t r)).b14, (inject_metadata m (mkV7 t r)).b15] := by
  rw [beBytes_six']
  rfl

/-- One generation event of the sortability claim: a wall-clock millisecond
timestamp, the random bytes drawn for the fresh version-7 value, and an
optional metadata record to embed. -/
structure GenEvent where
  t : Nat
  rand : V7Rand
  meta : Option ClientMetadata

/-- The text generated for one event: `generate` for a plain event,
`generate_with_metadata` for a metadata-bearing one, both on the same
generator configuration. -/
def gen_event (format : UuidFormat) (pfx : Option (List Char)) (e : GenEvent) : List Char :=
  match e.meta with
  | none => generate_v7 format pfx e.t e.rand
  | some m => generate_with_metadata format pfx m e.t e.rand

/-- Helper: any two events at strictly increasing timestamps produce strictly
increasing texts, for every format and prefix. -/
theorem gen_event_mono (format : UuidFormat) (pfx : Option (List Char)) (a b : GenEvent)
    (hb : b.t < 2 ^ 48) (hab : a.t < b.t) :
    lexLt (gen_event format pfx a) (gen_event format pfx b) = true := by
  cases hma : a.meta with
  | none =>
    cases hmb : b.meta with
    | none =>
      unfold gen_event
      rw [hma, hmb]
      exact lexLt_format format pfx _ _ a.t b.t _ _ (toList_mkV7 a.t a.rand)
        (toList_mkV7 b.t b.rand) hab hb
    | some mb =>
      unfold gen_event
      rw [hma, hmb]
      exact lexLt_format format pfx _ _ a.t b.t _ _ (toList_mkV7 a.t a.rand)
        (toList_inject_mkV7 mb b.t b.rand) hab hb
  | some ma =>
    cases hmb : b.meta with
    | none =>
      unfold gen_event
      rw [hma, hmb]
      exact lexLt_format format pfx _ _ a.t b.t _ _ (toList_inject_mkV7 ma a.t a.rand)
        (toList_mkV7 b.t b.rand) hab hb
    | some mb =>
      unfold gen_event
      rw [hma, hmb]
      exact lexLt_format format pfx _ _ a.t b.t _ _ (toList_inject_mkV7 ma a.t a.rand)
        (toList_inject_mkV7 mb b.t b.rand) hab hb

/-- C4: sortability.  For every fixed generator configuration (version 7, any
of the four formats, any fixed prefix) and every sequence of generation
events — plain or metadata-bearing — at strictly increasing 48-bit
millisecond timestamps, the generated texts are strictly increasing in
lexicographic order, i.e. sorting them reproduces generation order. -/
theorem c4_sortability (format : UuidFormat) (pfx : Option (List Char))
    (events : List GenEvent)
    (hbound : ∀ e ∈ events, e.t < 2 ^ 48)
    (hinc : events.Pairwise (fun a b => a.t < b.t)) :
    (events.map (gen_event format pfx)).Pairwise (fun s1 s2 => lexLt s1 s2 = true) := by
  rw [List.pairwise_map]
  refine List.Pairwise.imp_of_mem ?_ hinc
  intro a b _ hbmem hab
  exact gen_event_mono format pfx a b (hbound b hbmem) hab

/-- C4 witness: the theorem applied to two concrete events — a plain one at
timestamp 1000 and a metadata-bearing one at timestamp 2000 — under the
standard format with a literal prefix. -/
theorem c4_sortability_witness :
    (([⟨1000, ⟨1, 2, 3, 4, 5, 6, 7, 8, 9, 10⟩, none⟩,
       ⟨2000, ⟨11, 12, 13, 14, 15, 16, 17, 18, 19, 20⟩,
        some ⟨OsType.Linux, (6, 1), [104, 105], none⟩⟩] : List GenEvent).map
      (gen_event UuidFormat.Standard (some "id_".toList))).Pairwise
        (fun s1 s2 => lexLt s1 s2 = true) :=
  c4_sortability UuidFormat.Standard (some "id_".toList)
    [⟨1000, ⟨1, 2, 3, 4, 5, 6, 7, 8, 9, 10⟩, none⟩,
     ⟨2000, ⟨11, 12, 13, 14, 15, 16, 17, 18, 19, 20⟩,
      some ⟨OsType.Linux, (6, 1), [104, 105], none⟩⟩]
    (by decide) (by decide)
